import Mathlib

/-!
Shallow embedding of the cross-document definition-resolution engine of
`packages/language-service` (files `lib/features/provideDefinition.ts` and
`lib/languageService.ts`).

Collaborators that the two source files only call (analyzer plugins, source
maps, linked-code maps) are modelled as explicit environment records of
functions, exactly mirroring the call sites.  The recursive search
`withLinkedCode` is embedded with an explicit fuel parameter (the TypeScript
recursion is unbounded and only guarded by the visited set); a `calls`
counter in the state records how many analyzer invocations have happened,
which is the observable needed for the cancellation claims (analyzer calls
are the only suspension points of the algorithm).
-/

namespace Volar

/-- `{line, character}`, 0-based (protocol `Position`). -/
structure Pos where
  line : Nat
  character : Nat
deriving DecidableEq, Repr

/-- `{start, end}` over positions (protocol `Range`). -/
structure Range where
  start : Pos
  «end» : Pos
deriving DecidableEq, Repr

/-- Protocol `LocationLink`. -/
structure LocationLink where
  originSelectionRange : Option Range
  targetUri : String
  targetRange : Range
  targetSelectionRange : Range
deriving DecidableEq, Repr

/-- A `LinkedCodeMapWithDocument` as used by `withLinkedCode`: the document
it belongs to (its uri) and `getLinkedCodePositions`. -/
structure LinkedDoc where
  uri : String
  linked : Pos → List Pos

/-- The collaborators reached from inside the per-plugin worker of
`provideDefinition.ts`:
* `api` is `plugin[1][apiName]` (absent when the plugin does not expose the
  requested capability); invoking it on a document uri and position returns
  the candidate links (the `?? []` of the source absorbs `undefined`);
* `linkedCode u` is the composite
  `decodeEmbeddedDocumentUri` / `scripts.get` / `embeddedCodes.get` /
  `documents.getLinkedCodeMap` chain of lines 59-64 for a target uri `u`;
* `cancelled n` is the cancellation token value observed after `n` analyzer
  invocations (analyzer calls are the only suspension points, so the token
  can only be seen to change at those boundaries). -/
structure SearchEnv where
  api : Option (String → Pos → List LocationLink)
  linkedCode : String → Option LinkedDoc
  cancelled : Nat → Bool

/-- The mutable state of one per-plugin worker invocation:
`recursiveChecker` (as its set of `(uri, position)` members; the source
stores each position as a collapsed `{start: p, end: p}` range), the
accumulated `result` array, and the analyzer-invocation counter. -/
structure SearchState where
  checker : List (String × Pos)
  result : List LocationLink
  calls : Nat
deriving DecidableEq, Repr

/-- Lines 80-90: what gets pushed onto `result` for a terminal candidate:
with an inherited origin link, the candidate with its
`originSelectionRange` overridden by the origin link's; otherwise the
candidate itself. -/
def emitDefinition (originDefinition : Option LocationLink) (definition : LocationLink) :
    LocationLink :=
  match originDefinition with
  | some o => { definition with originSelectionRange := o.originSelectionRange }
  | none => definition

/-- One iteration of the mirror loop (lines 68-77), parameterized by the
recursive call `r`.  The boolean component is `foundMirrorPosition`. -/
def mirrorStep (r : String → Pos → Option LocationLink → SearchState → SearchState)
    (lcd : LinkedDoc) (originDefinition : Option LocationLink) (definition : LocationLink)
    (sb : SearchState × Bool) (linkedPos : Pos) : SearchState × Bool :=
  if (lcd.uri, linkedPos) ∈ sb.1.checker then sb
  else (r lcd.uri linkedPos (some (originDefinition.getD definition)) sb.1, true)

/-- The body of the candidate loop (lines 53-91), parameterized by the
recursive call `r`.  The candidate's `(targetUri, targetRange.start)` pair
is added to the checker first (line 57), then the linked-code map of the
target is consulted, mirrors are followed, and the candidate is emitted
exactly when no mirror was followed. -/
def processDefinition (env : SearchEnv)
    (r : String → Pos → Option LocationLink → SearchState → SearchState)
    (originDefinition : Option LocationLink) (s : SearchState) (definition : LocationLink) :
    SearchState :=
  let s1 : SearchState :=
    { s with checker := (definition.targetUri, definition.targetRange.start) :: s.checker }
  match env.linkedCode definition.targetUri with
  | some lcd =>
    let sb := (lcd.linked definition.targetSelectionRange.start).foldl
      (mirrorStep r lcd originDefinition definition) (s1, false)
    if sb.2 then sb.1
    else { sb.1 with result := sb.1.result ++ [emitDefinition originDefinition definition] }
  | none => { s1 with result := s1.result ++ [emitDefinition originDefinition definition] }

/-- `withLinkedCode` (lines 38-92), fuel-indexed.  At fuel 0 the state is
returned unchanged (the concrete theorems quantify over sufficient fuel).
Order of the source: missing-api check, visited check, insert, analyzer
invocation, candidate loop. -/
def withLinkedCode (env : SearchEnv) :
    Nat → String → Pos → Option LocationLink → SearchState → SearchState
  | 0 => fun _ _ _ s => s
  | fuel + 1 => fun docUri position originDefinition s =>
    match env.api with
    | none => s
    | some api =>
      if (docUri, position) ∈ s.checker then s
      else
        (api docUri position).foldl
          (processDefinition env (withLinkedCode env fuel) originDefinition)
          { s with checker := (docUri, position) :: s.checker, calls := s.calls + 1 }

/-- The per-plugin worker callback (lines 25-36): poll the token once, then
run the recursive search from a fresh checker and empty result list.
`none` models the `return;` taken on cancellation. -/
def provideWorker (env : SearchEnv) (fuel : Nat) (docUri : String) (position : Pos) :
    Option (List LocationLink) :=
  if env.cancelled 0 then none
  else some (withLinkedCode env fuel docUri position none
    { checker := [], result := [], calls := 0 }).result

/-! ### The result projector (the `(data, map)` lambda, lines 94-148) -/

/-- The three members of the definition family (the `apiName` parameter of
`register`). -/
inductive ApiName where
  | provideDefinition
  | provideTypeDefinition
  | provideImplementation
deriving DecidableEq, Repr

/-- The view of `context.documents.getSourceMap(targetVirtualFile)` that the
projector uses: the owning source document's uri and `getSourceRange`. -/
structure TargetInfo where
  sourceUri : String
  getSourceRange : Range → Option Range

/-- Collaborators of the projector lambda:
* `map` is the seed's `SourceMapWithDocuments` handed over by the feature
  worker (absent when the request ran on the source document directly);
  only its `getSourceRanges` is used;
* `targetInfo u` is the `decodeEmbeddedDocumentUri` / `scripts.get` /
  `embeddedCodes.get` / `getSourceMap` chain of lines 107-113 for a target
  uri `u` (`none` when `u` does not address a generated document). -/
structure ProjectorEnv where
  map : Option (Range → List Range)
  targetInfo : String → Option TargetInfo

/-- The surrounded-position test of lines 162-165 (inclusive on both ends). -/
def containsPos (range : Range) (position : Pos) : Bool :=
  (decide (range.start.line < position.line) ||
    (decide (range.start.line = position.line) &&
      decide (range.start.character ≤ position.character))) &&
  (decide (position.line < range.«end».line) ||
    (decide (range.«end».line = position.line) &&
      decide (position.character ≤ range.«end».character)))

/-- The loop of `toSourcePositionPreferSurroundedPosition` (lines 156-170):
`acc` is the `result` variable (first enumerated range, if any). -/
def tspGo (position : Pos) : List Range → Option Range → Option Range
  | [], acc => acc
  | range :: rest, acc =>
    let acc := if acc.isNone then some range else acc
    if containsPos range position then some range else tspGo position rest acc

/-- `toSourcePositionPreferSurroundedPosition` (lines 154-171). -/
def toSourcePositionPreferSurroundedPosition (getSourceRanges : Range → List Range)
    (mappedRange : Range) (position : Pos) : Option Range :=
  tspGo position (getSourceRanges mappedRange) none

/-- Lines 96-105: origin refinement.  A link carrying an
`originSelectionRange` while a seed map exists is either dropped (`none`,
line 101) or updated; otherwise it passes through unchanged. -/
def originStep (env : ProjectorEnv) (position : Pos) (link : LocationLink) :
    Option LocationLink :=
  match link.originSelectionRange, env.map with
  | some osr, some m =>
    match toSourcePositionPreferSurroundedPosition m osr position with
    | none => none
    | some originSelectionRange =>
      some { link with originSelectionRange := some originSelectionRange }
  | _, _ => some link

/-- The zero-width range at the document start used by the stub link. -/
def zeroRange : Range := { start := { line := 0, character := 0 }, «end» := { line := 0, character := 0 } }

/-- Lines 107-147: target projection.  When the target addresses a
generated document: rewrite through its source map if the selection maps;
otherwise, for plain `provideDefinition`, emit a cross-file stub or drop a
same-file link; for the other two kinds fall through to `return link`. -/
def targetStep (env : ProjectorEnv) (apiName : ApiName) (uri : String)
    (link : LocationLink) : Option LocationLink :=
  match env.targetInfo link.targetUri with
  | some info =>
    match info.getSourceRange link.targetSelectionRange with
    | some targetSelectionRange =>
      let targetRange := info.getSourceRange link.targetRange
      some { link with
        targetUri := info.sourceUri
        targetRange := targetRange.getD targetSelectionRange
        targetSelectionRange := targetSelectionRange }
    | none =>
      if apiName = ApiName.provideDefinition then
        if info.sourceUri ≠ uri then
          some { link with
            targetUri := info.sourceUri
            targetRange := zeroRange
            targetSelectionRange := zeroRange }
        else none
      else some link
  | none => some link

/-- One link through the whole projector lambda. -/
def projectLink (env : ProjectorEnv) (apiName : ApiName) (uri : String) (position : Pos)
    (link : LocationLink) : Option LocationLink :=
  (originStep env position link).bind (targetStep env apiName uri)

/-- `data.map(link => ...).filter(notEmpty)` over the result list. -/
def projectLinks (env : ProjectorEnv) (apiName : ApiName) (uri : String) (position : Pos)
    (links : List LocationLink) : List LocationLink :=
  links.filterMap (projectLink env apiName uri position)

/-! ### Embedded document addressing (`languageService.ts`, lines 175-191)

`encodeEmbeddedDocumentUri` / `decodeEmbeddedDocumentUri` build on two
external pieces that are modelled here faithfully:

* the JavaScript built-ins `encodeURIComponent` / `decodeURIComponent`
  (UTF-8 percent-encoding; `encodeURIComponent` keeps `A-Z a-z 0-9
  - _ . ! ~ * ' ( )` and escapes everything else).  The decoder below is
  total: a malformed percent-sequence is passed through unchanged (this is
  the graceful behaviour of vscode-uri's `percentDecode`; the real
  `decodeURIComponent` would throw, a path none of the theorems exercise);
* the `vscode-uri` `URI` class: `URI.from` stores the given components
  (after `_schemeFix` and `_referenceResolution`), `URI.parse` splits a
  string at `:`/`//`/`?`/`#` and percent-decodes each component, and
  `toString` re-encodes via `encodeURIComponentFast`, lower-casing the
  authority host and Windows drive letters. -/

/-- Uppercase hex digit of `x < 16` (percent-escapes use uppercase hex). -/
def hexDigitU (x : Nat) : Char :=
  Char.ofNat (if x < 10 then 48 + x else 55 + x)

/-- Value of a hex digit, either case. -/
def hexVal (c : Char) : Option Nat :=
  if 48 ≤ c.toNat ∧ c.toNat ≤ 57 then some (c.toNat - 48)
  else if 65 ≤ c.toNat ∧ c.toNat ≤ 70 then some (c.toNat - 55)
  else if 97 ≤ c.toNat ∧ c.toNat ≤ 102 then some (c.toNat - 87)
  else none

/-- UTF-8 bytes of a Unicode scalar value. -/
def utf8Bytes (n : Nat) : List Nat :=
  if n < 0x80 then [n]
  else if n < 0x800 then [0xC0 + n / 64, 0x80 + n % 64]
  else if n < 0x10000 then [0xE0 + n / 4096, 0x80 + n / 64 % 64, 0x80 + n % 64]
  else [0xF0 + n / 262144, 0x80 + n / 4096 % 64, 0x80 + n / 64 % 64, 0x80 + n % 64]

/-- `%XY` escape of one byte. -/
def escapeByte (b : Nat) : List Char :=
  ['%', hexDigitU (b / 16), hexDigitU (b % 16)]

/-- The set of code points `encodeURIComponent` leaves unescaped:
`A-Z a-z 0-9 - _ . ! ~ * ' ( )`. -/
def encodeKeepJS (n : Nat) : Bool :=
  decide ((65 ≤ n ∧ n ≤ 90) ∨ (97 ≤ n ∧ n ≤ 122) ∨ (48 ≤ n ∧ n ≤ 57) ∨
    n = 45 ∨ n = 95 ∨ n = 46 ∨ n = 33 ∨ n = 126 ∨ n = 42 ∨ n = 39 ∨ n = 40 ∨ n = 41)

/-- `encodeURIComponent` on one character. -/
def encodeChar (c : Char) : List Char :=
  if encodeKeepJS c.toNat then [c]
  else ((utf8Bytes c.toNat).map escapeByte).flatten

/-- `encodeURIComponent`, character list level. -/
def encodeURIComponentList : List Char → List Char
  | [] => []
  | c :: rest => encodeChar c ++ encodeURIComponentList rest

/-- Read one `%XY` triple from the front of the input. -/
def readByte : List Char → Option (Nat × List Char)
  | '%' :: h1 :: h2 :: rest =>
    match hexVal h1, hexVal h2 with
    | some a, some b => some (16 * a + b, rest)
    | _, _ => none
  | _ => none

/-- Keep only a UTF-8 continuation byte, returning its 6 payload bits. -/
def contByte (x : Option (Nat × List Char)) : Option (Nat × List Char) :=
  match x with
  | some (b, r) => if 0x80 ≤ b ∧ b < 0xC0 then some (b - 0x80, r) else none
  | none => none

/-- Percent-decoding, fuel-indexed (the fuel only serves structural
recursion; one unit is spent per emitted character, so the input length is
always enough).  Valid `%`-escaped UTF-8 sequences are decoded; anything
malformed is passed through unchanged. -/
def pctDecodeAux : Nat → List Char → List Char
  | 0, _ => []
  | _ + 1, [] => []
  | fuel + 1, c :: rest =>
    if c = '%' then
      match readByte (c :: rest) with
      | none => c :: pctDecodeAux fuel rest
      | some (b1, r1) =>
        if b1 < 0x80 then Char.ofNat b1 :: pctDecodeAux fuel r1
        else if b1 < 0xC2 then c :: pctDecodeAux fuel rest
        else if b1 < 0xE0 then
          match contByte (readByte r1) with
          | some (v2, r2) => Char.ofNat ((b1 - 0xC0) * 64 + v2) :: pctDecodeAux fuel r2
          | none => c :: pctDecodeAux fuel rest
        else if b1 < 0xF0 then
          match contByte (readByte r1) with
          | some (v2, r2) =>
            match contByte (readByte r2) with
            | some (v3, r3) =>
              Char.ofNat ((b1 - 0xE0) * 4096 + v2 * 64 + v3) :: pctDecodeAux fuel r3
            | none => c :: pctDecodeAux fuel rest
          | none => c :: pctDecodeAux fuel rest
        else if b1 < 0xF5 then
          match contByte (readByte r1) with
          | some (v2, r2) =>
            match contByte (readByte r2) with
            | some (v3, r3) =>
              match contByte (readByte r3) with
              | some (v4, r4) =>
                Char.ofNat ((b1 - 0xF0) * 262144 + v2 * 4096 + v3 * 64 + v4) ::
                  pctDecodeAux fuel r4
              | none => c :: pctDecodeAux fuel rest
            | none => c :: pctDecodeAux fuel rest
          | none => c :: pctDecodeAux fuel rest
        else c :: pctDecodeAux fuel rest
    else c :: pctDecodeAux fuel rest

/-- `decodeURIComponent` (and vscode-uri's `percentDecode`), list level. -/
def decodeURIComponentList (l : List Char) : List Char :=
  pctDecodeAux l.length l

/-- `encodeURIComponent` (JS built-in). -/
def encodeURIComponent (s : String) : String :=
  ⟨encodeURIComponentList s.data⟩

/-- `decodeURIComponent` (JS built-in / vscode-uri `percentDecode`). -/
def decodeURIComponent (s : String) : String :=
  ⟨decodeURIComponentList s.data⟩

/-- The five components of a vscode-uri `URI` object, stored decoded. -/
structure URIModel where
  scheme : String
  authority : String
  path : String
  query : String
  fragment : String
deriving DecidableEq, Repr

/-- vscode-uri `_schemeFix` in non-strict mode: an absent scheme becomes
`file`. -/
def schemeFix (scheme : String) : String :=
  if scheme = "" then "file" else scheme

/-- vscode-uri `_referenceResolution`: for `http`/`https`/`file` an empty
path becomes `/` and a relative path is rooted. -/
def referenceResolution (scheme path : String) : String :=
  if scheme = "https" ∨ scheme = "http" ∨ scheme = "file" then
    if path = "" then "/"
    else if path.data.head? ≠ some '/' then ⟨'/' :: path.data⟩ else path
  else path

/-- The `Uri` constructor reached through `URI.from` (component form). -/
def URIfrom (scheme authority path query fragment : String) : URIModel :=
  { scheme := schemeFix scheme
    authority := authority
    path := referenceResolution (schemeFix scheme) path
    query := query
    fragment := fragment }

/-- The set kept unescaped by vscode-uri `encodeURIComponentFast`:
RFC 3986 unreserved, plus `/` inside paths, plus `[ ] :` inside
authorities. -/
def keepFast (n : Nat) (isPath isAuthority : Bool) : Bool :=
  decide ((97 ≤ n ∧ n ≤ 122) ∨ (65 ≤ n ∧ n ≤ 90) ∨ (48 ≤ n ∧ n ≤ 57) ∨
    n = 45 ∨ n = 46 ∨ n = 95 ∨ n = 126) ||
  (isPath && decide (n = 47)) ||
  (isAuthority && decide (n = 91 ∨ n = 93 ∨ n = 58))

/-- vscode-uri `encodeURIComponentFast`. -/
def encodeURIComponentFast : List Char → Bool → Bool → List Char
  | [], _, _ => []
  | c :: rest, isPath, isAuthority =>
    (if keepFast c.toNat isPath isAuthority then [c]
     else ((utf8Bytes c.toNat).map escapeByte).flatten) ++
      encodeURIComponentFast rest isPath isAuthority

/-- First index of `c`, JS `indexOf`. -/
def idxOf? (c : Char) : List Char → Option Nat
  | [] => none
  | x :: xs => if x = c then some 0 else (idxOf? c xs).map (· + 1)

/-- Last index of `c`, JS `lastIndexOf`. -/
def lastIdxOf? (c : Char) (l : List Char) : Option Nat :=
  (idxOf? c l.reverse).map (fun i => l.length - 1 - i)

/-- Host (and optional port) part of `_asFormatted`'s authority handling:
the host is lower-cased, the port after the last `:` is appended raw. -/
def formatAuthorityHost (h : List Char) : List Char :=
  let h := h.map Char.toLower
  match lastIdxOf? ':' h with
  | none => encodeURIComponentFast h false true
  | some j => encodeURIComponentFast (h.take j) false true ++ h.drop j

/-- Authority formatting of `_asFormatted`: optional `userinfo@`, then the
lower-cased host. -/
def formatAuthority (a : List Char) : List Char :=
  match idxOf? '@' a with
  | some i =>
    let userinfo := a.take i
    let rest := a.drop (i + 1)
    (match lastIdxOf? ':' userinfo with
     | none => encodeURIComponentFast userinfo false false
     | some j => encodeURIComponentFast (userinfo.take j) false false ++ [':'] ++
         encodeURIComponentFast (userinfo.drop (j + 1)) false true) ++
      ['@'] ++ formatAuthorityHost rest
  | none => formatAuthorityHost a

/-- Windows drive-letter lower-casing of `_asFormatted`. -/
def fixDrive (p : List Char) : List Char :=
  match p with
  | '/' :: c :: ':' :: rest =>
    if decide ('A' ≤ c ∧ c ≤ 'Z') then '/' :: c.toLower :: ':' :: rest else p
  | c :: ':' :: rest =>
    if decide ('A' ≤ c ∧ c ≤ 'Z') then c.toLower :: ':' :: rest else p
  | _ => p

/-- vscode-uri `toString` (`_asFormatted` with encoding). -/
def asFormatted (u : URIModel) : String :=
  let res : List Char := if u.scheme ≠ "" then u.scheme.data ++ [':'] else []
  let res := res ++ (if u.authority ≠ "" ∨ u.scheme = "file" then ['/', '/'] else [])
  let res := res ++ (if u.authority ≠ "" then formatAuthority u.authority.data else [])
  let res := res ++
    (if u.path ≠ "" then encodeURIComponentFast (fixDrive u.path.data) true false else [])
  let res := res ++
    (if u.query ≠ "" then '?' :: encodeURIComponentFast u.query.data false false else [])
  let res := res ++
    (if u.fragment ≠ "" then '#' :: encodeURIComponentFast u.fragment.data false false else [])
  ⟨res⟩

/-- One of `: / ? #`, the split points of the `URI.parse` regular
expression. -/
def stopChar (c : Char) : Bool :=
  c = ':' || c = '/' || c = '?' || c = '#'

/-- First index of a split point together with that character. -/
def firstStop : List Char → Option (Nat × Char)
  | [] => none
  | c :: rest =>
    if stopChar c then some (0, c) else (firstStop rest).map (fun p => (p.1 + 1, p.2))

/-- vscode-uri `URI.parse` (non-strict): split at `scheme:`, `//authority`,
`path`, `?query`, `#fragment`, percent-decode every component but the
scheme, and run the constructor fix-ups. -/
def parseUri (s : String) : URIModel :=
  let l := s.data
  let schemeRest : List Char × List Char :=
    match firstStop l with
    | some (i, c) => if c = ':' ∧ i ≠ 0 then (l.take i, l.drop (i + 1)) else ([], l)
    | none => ([], l)
  let authorityRest : List Char × List Char :=
    match schemeRest.2 with
    | '/' :: '/' :: r =>
      let auth := r.takeWhile (fun c => ¬(c = '/' || c = '?' || c = '#'))
      (auth, r.drop auth.length)
    | r => ([], r)
  let path := authorityRest.2.takeWhile (fun c => ¬(c = '?' || c = '#'))
  let r3 := authorityRest.2.drop path.length
  let queryRest : List Char × List Char :=
    match r3 with
    | '?' :: r => (r.takeWhile (· ≠ '#'), r.drop (r.takeWhile (· ≠ '#')).length)
    | r => ([], r)
  let fragment : List Char :=
    match queryRest.2 with
    | '#' :: r => r
    | _ => []
  URIfrom ⟨schemeRest.1⟩ ⟨decodeURIComponentList authorityRest.1⟩
    ⟨decodeURIComponentList path⟩ ⟨decodeURIComponentList queryRest.1⟩
    ⟨decodeURIComponentList fragment⟩

/-- JS `String.prototype.substring(i)`. -/
def substringFrom (s : String) (i : Nat) : String :=
  ⟨s.data.drop i⟩

/-- `languageService.ts` line 54. -/
def embeddedContentScheme : String := "volar-embedded-content"

/-- `encodeEmbeddedDocumentUri` (lines 185-191). -/
def encodeEmbeddedDocumentUri (documentUri : URIModel) (embeddedContentId : String) :
    URIModel :=
  URIfrom embeddedContentScheme (encodeURIComponent embeddedContentId)
    ("/" ++ encodeURIComponent (asFormatted documentUri)) "" ""

/-- `decodeEmbeddedDocumentUri` (lines 175-184). -/
def decodeEmbeddedDocumentUri (maybeEmbeddedContentUri : URIModel) :
    Option (URIModel × String) :=
  if maybeEmbeddedContentUri.scheme = embeddedContentScheme then
    let embeddedCodeId := decodeURIComponent maybeEmbeddedContentUri.authority
    let documentUri := decodeURIComponent (substringFrom maybeEmbeddedContentUri.path 1)
    some (parseUri documentUri, embeddedCodeId)
  else none

/-! ### The document cache (`languageService.ts`, lines 50-74)

`documents.get` keys memoized `TextDocument`s by (snapshot identity, uri)
through the nested `snapshot2Doc : WeakMap<snapshot, UriMap<TextDocument>>`;
the nesting is flattened here into one association list on the pair key
(look-up behaviour is identical), kept in insertion order so that
"first seen" is expressible.  Snapshot identity is modelled by a numeric
id carried next to the snapshot's text. -/

/-- A `ts.IScriptSnapshot`: the object identity (as a number) plus the text
`snapshot.getText(0, snapshot.getLength())` would produce. -/
structure Snapshot where
  id : Nat
  text : String
deriving DecidableEq, Repr

/-- A `TextDocument` as created by `TextDocument.create`. -/
structure TextDocumentM where
  uri : String
  languageId : String
  version : Nat
  text : String
deriving DecidableEq, Repr

/-- Association-list lookup (first match wins, like `Map.get`). -/
def alookup {α β : Type} [DecidableEq α] : List (α × β) → α → Option β
  | [], _ => none
  | (a, b) :: rest, k => if a = k then some b else alookup rest k

/-- The two closed-over maps of `createLanguageService` that
`documents.get` reads and writes: the flattened `snapshot2Doc` (in
insertion order) and the per-uri `documentVersions` counters (`set` is
modelled by shadowing cons). -/
structure DocStoreState where
  snapshot2Doc : List ((Nat × String) × TextDocumentM)
  documentVersions : List (String × Nat)
deriving DecidableEq, Repr

/-- The per-uri version counter (`documentVersions.get(uri) ?? 0`). -/
def versionCounter (st : DocStoreState) (uri : String) : Nat :=
  (alookup st.documentVersions uri).getD 0

/-- `documents.get(uri, languageId, snapshot)` (lines 58-74): return the
memoized document for the (snapshot, uri) pair, or materialize one whose
version is the current per-uri counter, bumping the counter. -/
def documentsGet (st : DocStoreState) (uri : String) (languageId : String)
    (snapshot : Snapshot) : TextDocumentM × DocStoreState :=
  match alookup st.snapshot2Doc (snapshot.id, uri) with
  | some doc => (doc, st)
  | none =>
    let version := versionCounter st uri
    let doc : TextDocumentM :=
      { uri := uri, languageId := languageId, version := version, text := snapshot.text }
    (doc,
      { snapshot2Doc := st.snapshot2Doc ++ [((snapshot.id, uri), doc)]
        documentVersions := (uri, version + 1) :: st.documentVersions })

/-- One request in a sequence of `documents.get` calls. -/
structure GetCall where
  uri : String
  languageId : String
  snapshot : Snapshot
deriving DecidableEq, Repr

/-- Run a sequence of `documents.get` calls, discarding the returned
documents and threading the store. -/
def runGets (st : DocStoreState) (calls : List GetCall) : DocStoreState :=
  calls.foldl (fun st c => (documentsGet st c.uri c.languageId c.snapshot).2) st

/-- The store before any call. -/
def emptyDocStore : DocStoreState := { snapshot2Doc := [], documentVersions := [] }

/-- The version-discipline invariant of the store: every memoized document
is below its uri's counter, and same-uri documents have strictly increasing
versions in first-seen order (hence pairwise distinct, never reused). -/
def DocInv (st : DocStoreState) : Prop :=
  (∀ e ∈ st.snapshot2Doc, e.2.version < versionCounter st e.1.2) ∧
  st.snapshot2Doc.Pairwise (fun e1 e2 => e1.1.2 = e2.1.2 → e1.2.version < e2.2.version)

/-! ### Concrete instances used by witnesses and counterexamples -/

/-- Seed position of the concrete runs. -/
def pSeed : Pos := ⟨0, 0⟩

/-- First mirrored position of the cyclic linked-code map. -/
def pA : Pos := ⟨1, 1⟩

/-- Second mirrored position of the cyclic linked-code map. -/
def pB : Pos := ⟨2, 2⟩

/-- Origin selection range of the seed candidate. -/
def osrA : Range := ⟨⟨0, 5⟩, ⟨0, 9⟩⟩

/-- Seed candidate: mirrored, so never emitted itself. -/
def dA : LocationLink :=
  { originSelectionRange := some osrA, targetUri := "g"
    targetRange := ⟨pA, pA⟩, targetSelectionRange := ⟨pA, pA⟩ }

/-- Terminal candidate found behind the mirror. -/
def dB : LocationLink :=
  { originSelectionRange := none, targetUri := "g"
    targetRange := ⟨pB, pB⟩, targetSelectionRange := ⟨pB, pB⟩ }

/-- Cyclic mirror relation: `pA` mirrors `pB` and `pB` mirrors `pA`. -/
def cLinked (p : Pos) : List Pos :=
  if p = pA then [pB] else if p = pB then [pA] else []

/-- Analyzer of the concrete runs. -/
def cApi (u : String) (p : Pos) : List LocationLink :=
  if u = "g" then (if p = pSeed then [dA] else if p = pB then [dB] else []) else []

/-- Concrete environment with a two-position mirror cycle; the token
becomes signalled right after the first analyzer invocation. -/
def cEnv : SearchEnv :=
  { api := some cApi
    linkedCode := fun u => if u = "g" then some ⟨"g", cLinked⟩ else none
    cancelled := fun n => decide (1 ≤ n) }

/-- Fresh search state. -/
def s0 : SearchState := ⟨[], [], 0⟩

/-- The finite universe of (uri, position) pairs reachable in `cEnv`. -/
def cU : Finset (String × Pos) := {("g", pSeed), ("g", pA), ("g", pB)}

/-- The checker state right after the seed insertion of the concrete run. -/
def s0Seed : SearchState := ⟨[("g", pSeed)], [], 1⟩

/-- Candidate whose `targetRange.start` and `targetSelectionRange.start`
differ, exposing which of the two the checker records. -/
def d5 : LocationLink :=
  { originSelectionRange := none, targetUri := "t5"
    targetRange := ⟨⟨1, 0⟩, ⟨1, 6⟩⟩, targetSelectionRange := ⟨⟨2, 0⟩, ⟨2, 4⟩⟩ }

/-- Analyzer returning `d5` at the seed of document `h`. -/
def api5 (u : String) (p : Pos) : List LocationLink :=
  if u = "h" ∧ p = pSeed then [d5] else []

/-- Environment without any linked-code maps. -/
def cEnv5 : SearchEnv :=
  { api := some api5, linkedCode := fun _ => none, cancelled := fun _ => false }

/-- The state after the seed search of `cEnv5`. -/
def st5 : SearchState := withLinkedCode cEnv5 2 "h" pSeed none s0

/-- A target range in generated coordinates. -/
def rTgt : Range := ⟨⟨10, 0⟩, ⟨10, 5⟩⟩

/-- Target map of an embedded document none of whose ranges map back. -/
def info8 : TargetInfo := { sourceUri := "src", getSourceRange := fun _ => none }

/-- Projector environment decoding only the uri `emb`. -/
def env8 : ProjectorEnv :=
  { map := none, targetInfo := fun u => if u = "emb" then some info8 else none }

/-- A link targeting the embedded document `emb`. -/
def link8 : LocationLink :=
  { originSelectionRange := none, targetUri := "emb"
    targetRange := rTgt, targetSelectionRange := rTgt }

/-- The position originally queried in the source document. -/
def qPos : Pos := ⟨5, 3⟩

/-- A source range that does not contain `qPos`. -/
def srcR1 : Range := ⟨⟨9, 0⟩, ⟨9, 4⟩⟩

/-- A source range that contains `qPos`. -/
def srcR2 : Range := ⟨⟨5, 0⟩, ⟨5, 10⟩⟩

/-- Origin selection range in generated coordinates. -/
def osrG : Range := ⟨⟨20, 1⟩, ⟨20, 7⟩⟩

/-- Seed source map for the origin-refinement runs: `osrG` has two source
ranges, the second of which surrounds `qPos`. -/
def mapC6 (r : Range) : List Range :=
  if r = osrG then [srcR1, srcR2] else []

/-- Projector environment for the origin-refinement runs. -/
def env6 : ProjectorEnv := { map := some mapC6, targetInfo := fun _ => none }

/-- A pass-through link (non-embedded target) carrying `osrG`. -/
def link6 : LocationLink :=
  { originSelectionRange := some osrG, targetUri := "plain"
    targetRange := rTgt, targetSelectionRange := rTgt }

/-- A normalization-stable source uri containing a reserved character
(space) in its path. -/
def uStable : URIModel := URIfrom "file" "" "/a b" "" ""

/-- An embedded-code id with reserved characters and an uppercase letter. -/
def idReserved : String := "A/b?c 7"

/-- A source uri whose authority contains uppercase letters (as produced by
`URI.parse` on `file://WS/x`, which preserves case). -/
def uUpper : URIModel := parseUri "file://WS/x"

/-- A finite universe `U` is closed under one environment when every
analyzer candidate's checker insertion and every mirror position reachable
from it stays inside `U`.  This is the "finite set of (document, position)
pairs reachable from the maps in play" of the termination argument. -/
def EnvClosed (env : SearchEnv) (U : Finset (String × Pos)) : Prop :=
  ∀ api, env.api = some api →
    ∀ docUri pos, ∀ d ∈ api docUri pos,
      (d.targetUri, d.targetRange.start) ∈ U ∧
      ∀ lcd, env.linkedCode d.targetUri = some lcd →
        ∀ lp ∈ lcd.linked d.targetSelectionRange.start, (lcd.uri, lp) ∈ U

/-- `cEnv` with a token that is already signalled at the start. -/
def cEnvC : SearchEnv := { cEnv with cancelled := fun _ => true }

/-- Origin source map for the end-to-end origin-propagation run: the seed
candidate's match span `osrA` corresponds to the single source range
`srcR2` (which surrounds `qPos`). -/
def map3 (r : Range) : List Range :=
  if r = osrA then [srcR2] else []

/-- Projector environment for the end-to-end origin-propagation run. -/
def env3 : ProjectorEnv := { map := some map3, targetInfo := fun _ => none }

/-- First snapshot of the document-cache runs. -/
def snapA : Snapshot := ⟨1, "text one"⟩

/-- Second snapshot (same uri, different identity). -/
def snapB : Snapshot := ⟨2, "text two"⟩

/-! ## Theorems -/

/-! ### Percent-encoding round trip -/

/-- Every scalar value of a `Char` is below `0x110000`. -/
theorem char_toNat_lt (c : Char) : c.toNat < 1114112 := by
  rcases c.valid with h | h
  · exact Nat.lt_trans h (by norm_num)
  · exact h.2

/-- `hexVal` inverts `hexDigitU` on `x < 16`. -/
theorem hexVal_hexDigitU : ∀ x < 16, hexVal (hexDigitU x) = some x := by decide

/-- `readByte` reads back one escaped byte. -/
theorem readByte_escape (b : Nat) (hb : b < 256) (t : List Char) :
    readByte (escapeByte b ++ t) = some (b, t) := by
  have h1 : hexVal (hexDigitU (b / 16)) = some (b / 16) := hexVal_hexDigitU _ (by omega)
  have h2 : hexVal (hexDigitU (b % 16)) = some (b % 16) := hexVal_hexDigitU _ (by omega)
  have e : 16 * (b / 16) + b % 16 = b := by omega
  simp only [escapeByte, List.cons_append, List.nil_append, readByte, h1, h2, e]

/-- Decoding one escaped ASCII byte. -/
theorem pctDecodeAux_utf8_1 (n : Nat) (h : n < 128) (fuel : Nat) (t : List Char) :
    pctDecodeAux (fuel + 1) (escapeByte n ++ t) = Char.ofNat n :: pctDecodeAux fuel t := by
  have hr := readByte_escape n (by omega) t
  have e1 : escapeByte n ++ t = '%' :: hexDigitU (n / 16) :: hexDigitU (n % 16) :: t := by
    simp [escapeByte]
  rw [e1] at hr ⊢
  rw [pctDecodeAux]
  simp [hr, h]

/-- Decoding one escaped two-byte sequence. -/
theorem pctDecodeAux_utf8_2 (n : Nat) (hlo : 128 ≤ n) (hhi : n < 2048) (fuel : Nat)
    (t : List Char) :
    pctDecodeAux (fuel + 1) (escapeByte (192 + n / 64) ++ (escapeByte (128 + n % 64) ++ t)) =
      Char.ofNat n :: pctDecodeAux fuel t := by
  have hr1 := readByte_escape (192 + n / 64) (by omega) (escapeByte (128 + n % 64) ++ t)
  have hr2 := readByte_escape (128 + n % 64) (by omega) t
  have c1 : ¬(192 + n / 64 < 128) := by omega
  have c2 : ¬(192 + n / 64 < 194) := by omega
  have c3 : 192 + n / 64 < 224 := by omega
  have c4 : 128 ≤ 128 + n % 64 ∧ 128 + n % 64 < 192 := by omega
  have e1 : escapeByte (192 + n / 64) ++ (escapeByte (128 + n % 64) ++ t) =
      '%' :: hexDigitU ((192 + n / 64) / 16) :: hexDigitU ((192 + n / 64) % 16) ::
        (escapeByte (128 + n % 64) ++ t) := by
    simp [escapeByte]
  rw [e1] at hr1 ⊢
  rw [pctDecodeAux]
  simp only [hr1, hr2, contByte, c4, and_self, if_true, ite_true, if_pos]
  simp [c1, c2, c3]
  congr 1
  omega

/-- Decoding one escaped three-byte sequence. -/
theorem pctDecodeAux_utf8_3 (n : Nat) (hlo : 2048 ≤ n) (hhi : n < 65536) (fuel : Nat)
    (t : List Char) :
    pctDecodeAux (fuel + 1) (escapeByte (224 + n / 4096) ++
      (escapeByte (128 + n / 64 % 64) ++ (escapeByte (128 + n % 64) ++ t))) =
      Char.ofNat n :: pctDecodeAux fuel t := by
  have hr1 := readByte_escape (224 + n / 4096) (by omega)
    (escapeByte (128 + n / 64 % 64) ++ (escapeByte (128 + n % 64) ++ t))
  have hr2 := readByte_escape (128 + n / 64 % 64) (by omega) (escapeByte (128 + n % 64) ++ t)
  have hr3 := readByte_escape (128 + n % 64) (by omega) t
  have c1 : ¬(224 + n / 4096 < 128) := by omega
  have c2 : ¬(224 + n / 4096 < 194) := by omega
  have c3 : ¬(224 + n / 4096 < 224) := by omega
  have c4 : 224 + n / 4096 < 240 := by omega
  have c5 : 128 ≤ 128 + n / 64 % 64 ∧ 128 + n / 64 % 64 < 192 := by omega
  have c6 : 128 ≤ 128 + n % 64 ∧ 128 + n % 64 < 192 := by omega
  have e1 : escapeByte (224 + n / 4096) ++
      (escapeByte (128 + n / 64 % 64) ++ (escapeByte (128 + n % 64) ++ t)) =
      '%' :: hexDigitU ((224 + n / 4096) / 16) :: hexDigitU ((224 + n / 4096) % 16) ::
        (escapeByte (128 + n / 64 % 64) ++ (escapeByte (128 + n % 64) ++ t)) := by
    simp [escapeByte]
  rw [e1] at hr1 ⊢
  rw [pctDecodeAux]
  simp only [hr1, hr2, hr3, contByte, c5, c6, and_self, if_true, ite_true, if_pos]
  simp [c1, c2, c3, c4]
  congr 1
  omega

/-- Decoding one escaped four-byte sequence. -/
theorem pctDecodeAux_utf8_4 (n : Nat) (hlo : 65536 ≤ n) (hhi : n < 1114112) (fuel : Nat)
    (t : List Char) :
    pctDecodeAux (fuel + 1) (escapeByte (240 + n / 262144) ++
      (escapeByte (128 + n / 4096 % 64) ++ (escapeByte (128 + n / 64 % 64) ++
        (escapeByte (128 + n % 64) ++ t)))) =
      Char.ofNat n :: pctDecodeAux fuel t := by
  have hr1 := readByte_escape (240 + n / 262144) (by omega)
    (escapeByte (128 + n / 4096 % 64) ++ (escapeByte (128 + n / 64 % 64) ++
      (escapeByte (128 + n % 64) ++ t)))
  have hr2 := readByte_escape (128 + n / 4096 % 64) (by omega)
    (escapeByte (128 + n / 64 % 64) ++ (escapeByte (128 + n % 64) ++ t))
  have hr3 := readByte_escape (128 + n / 64 % 64) (by omega) (escapeByte (128 + n % 64) ++ t)
  have hr4 := readByte_escape (128 + n % 64) (by omega) t
  have c1 : ¬(240 + n / 262144 < 128) := by omega
  have c2 : ¬(240 + n / 262144 < 194) := by omega
  have c3 : ¬(240 + n / 262144 < 224) := by omega
  have c4 : ¬(240 + n / 262144 < 240) := by omega
  have c5 : 240 + n / 262144 < 245 := by omega
  have c6 : 128 ≤ 128 + n / 4096 % 64 ∧ 128 + n / 4096 % 64 < 192 := by omega
  have c7 : 128 ≤ 128 + n / 64 % 64 ∧ 128 + n / 64 % 64 < 192 := by omega
  have c8 : 128 ≤ 128 + n % 64 ∧ 128 + n % 64 < 192 := by omega
  have e1 : escapeByte (240 + n / 262144) ++
      (escapeByte (128 + n / 4096 % 64) ++ (escapeByte (128 + n / 64 % 64) ++
        (escapeByte (128 + n % 64) ++ t))) =
      '%' :: hexDigitU ((240 + n / 262144) / 16) :: hexDigitU ((240 + n / 262144) % 16) ::
        (escapeByte (128 + n / 4096 % 64) ++ (escapeByte (128 + n / 64 % 64) ++
          (escapeByte (128 + n % 64) ++ t))) := by
    simp [escapeByte]
  rw [e1] at hr1 ⊢
  rw [pctDecodeAux]
  simp only [hr1, hr2, hr3, hr4, contByte, c6, c7, c8, and_self, if_true, ite_true, if_pos]
  simp [c1, c2, c3, c4, c5]
  congr 1
  omega

/-- Kept characters are never the escape character. -/
theorem keep_ne_pct (c : Char) (hk : encodeKeepJS c.toNat = true) : ¬c = '%' := by
  intro h
  rw [h] at hk
  simp [encodeKeepJS] at hk

/-- The decoder undoes `encodeChar` and proceeds. -/
theorem pctDecodeAux_encodeChar (c : Char) (fuel : Nat) (t : List Char) :
    pctDecodeAux (fuel + 1) (encodeChar c ++ t) = c :: pctDecodeAux fuel t := by
  by_cases hk : encodeKeepJS c.toNat
  · have hne : ¬c = '%' := keep_ne_pct c hk
    simp [encodeChar, hk, pctDecodeAux, hne]
  · have hv := char_toNat_lt c
    rcases Nat.lt_or_ge c.toNat 128 with h1 | h1
    · have h := pctDecodeAux_utf8_1 c.toNat h1 fuel t
      rw [Char.ofNat_toNat] at h
      simpa [encodeChar, hk, utf8Bytes, h1, escapeByte] using h
    rcases Nat.lt_or_ge c.toNat 2048 with h2 | h2
    · have h := pctDecodeAux_utf8_2 c.toNat h1 h2 fuel t
      rw [Char.ofNat_toNat] at h
      simpa [encodeChar, hk, utf8Bytes, Nat.not_lt.mpr h1, h2, escapeByte] using h
    rcases Nat.lt_or_ge c.toNat 65536 with h3 | h3
    · have h := pctDecodeAux_utf8_3 c.toNat h2 h3 fuel t
      rw [Char.ofNat_toNat] at h
      simpa [encodeChar, hk, utf8Bytes, Nat.not_lt.mpr h1, Nat.not_lt.mpr h2, h3,
        escapeByte] using h
    · have h := pctDecodeAux_utf8_4 c.toNat h3 hv fuel t
      rw [Char.ofNat_toNat] at h
      simpa [encodeChar, hk, utf8Bytes, Nat.not_lt.mpr h1, Nat.not_lt.mpr h2,
        Nat.not_lt.mpr h3, escapeByte] using h

/-- Encoding a character yields at least one character. -/
theorem one_le_length_encodeChar (c : Char) : 1 ≤ (encodeChar c).length := by
  by_cases hk : encodeKeepJS c.toNat
  · simp [encodeChar, hk]
  · rw [encodeChar, if_neg hk, utf8Bytes]
    split_ifs <;> simp [escapeByte]

/-- Encoding never shrinks a string. -/
theorem length_le_encodeList (s : List Char) :
    s.length ≤ (encodeURIComponentList s).length := by
  induction s with
  | nil => simp [encodeURIComponentList]
  | cons c cs ih =>
    rw [encodeURIComponentList]
    have := one_le_length_encodeChar c
    simp only [List.length_append, List.length_cons]
    omega

/-- With enough fuel the decoder inverts the encoder. -/
theorem pctDecodeAux_encodeList (s : List Char) :
    ∀ fuel, s.length ≤ fuel → pctDecodeAux fuel (encodeURIComponentList s) = s := by
  induction s with
  | nil => intro fuel _; cases fuel <;> simp [encodeURIComponentList, pctDecodeAux]
  | cons c cs ih =>
    intro fuel hf
    cases fuel with
    | zero => simp at hf
    | succ f =>
      rw [encodeURIComponentList, pctDecodeAux_encodeChar, ih f (by simpa using hf)]

/-- `decodeURIComponent ∘ encodeURIComponent = id`, list level. -/
theorem decode_encode_list (s : List Char) :
    decodeURIComponentList (encodeURIComponentList s) = s :=
  pctDecodeAux_encodeList s _ (length_le_encodeList s)

/-- `decodeURIComponent ∘ encodeURIComponent = id`. -/
theorem decodeURIComponent_encodeURIComponent (s : String) :
    decodeURIComponent (encodeURIComponent s) = s := by
  cases s with
  | mk data => simp [decodeURIComponent, encodeURIComponent, decode_encode_list]

/-! ### Search-state invariants of `withLinkedCode` -/

/-- A fold whose step only grows the checker grows the checker. -/
theorem foldl_checker_sub {β : Type} (f : SearchState → β → SearchState)
    (hf : ∀ s x, s.checker ⊆ (f s x).checker) :
    ∀ (l : List β) (s : SearchState), s.checker ⊆ (l.foldl f s).checker := by
  intro l
  induction l with
  | nil => intro s; simp
  | cons x xs ih =>
    intro s
    rw [List.foldl_cons]
    exact List.Subset.trans (hf s x) (ih (f s x))

/-- Pair-state version of `foldl_checker_sub`. -/
theorem foldl_checker_sub_pair {β : Type} (f : SearchState × Bool → β → SearchState × Bool)
    (hf : ∀ sb x, sb.1.checker ⊆ (f sb x).1.checker) :
    ∀ (l : List β) (sb : SearchState × Bool), sb.1.checker ⊆ (l.foldl f sb).1.checker := by
  intro l
  induction l with
  | nil => intro sb; simp
  | cons x xs ih =>
    intro sb
    rw [List.foldl_cons]
    exact List.Subset.trans (hf sb x) (ih (f sb x))

/-- Generic invariant preservation through a fold. -/
theorem foldl_inv {β : Type} (P : SearchState → Prop) (f : SearchState → β → SearchState) :
    ∀ (l : List β) (s : SearchState), (∀ s' x, x ∈ l → P s' → P (f s' x)) → P s →
      P (l.foldl f s) := by
  intro l
  induction l with
  | nil => intro s _ h; simpa
  | cons x xs ih =>
    intro s hstep h
    rw [List.foldl_cons]
    exact ih (f s x) (fun s' y hy => hstep s' y (List.mem_cons_of_mem _ hy))
      (hstep s x (List.mem_cons_self _ _) h)

/-- Pair-state version of `foldl_inv`. -/
theorem foldl_inv_pair {β : Type} (P : SearchState → Prop)
    (f : SearchState × Bool → β → SearchState × Bool) :
    ∀ (l : List β) (sb : SearchState × Bool), (∀ sb' x, x ∈ l → P sb'.1 → P (f sb' x).1) →
      P sb.1 → P (l.foldl f sb).1 := by
  intro l
  induction l with
  | nil => intro sb _ h; simpa
  | cons x xs ih =>
    intro sb hstep h
    rw [List.foldl_cons]
    exact ih (f sb x) (fun sb' y hy => hstep sb' y (List.mem_cons_of_mem _ hy))
      (hstep sb x (List.mem_cons_self _ _) h)

/-- One mirror step only grows the checker (given the recursive call does). -/
theorem mirrorStep_checker_sub (r : String → Pos → Option LocationLink → SearchState → SearchState)
    (hr : ∀ u p o s, s.checker ⊆ (r u p o s).checker)
    (lcd : LinkedDoc) (od : Option LocationLink) (d : LocationLink) :
    ∀ sb lp, sb.1.checker ⊆ (mirrorStep r lcd od d sb lp).1.checker := by
  intro sb lp
  unfold mirrorStep
  split
  · exact List.Subset.refl _
  · exact hr _ _ _ _

/-- Processing one candidate only grows the checker. -/
theorem processDefinition_checker_sub (env : SearchEnv)
    (r : String → Pos → Option LocationLink → SearchState → SearchState)
    (hr : ∀ u p o s, s.checker ⊆ (r u p o s).checker)
    (od : Option LocationLink) (s : SearchState) (d : LocationLink) :
    s.checker ⊆ (processDefinition env r od s d).checker := by
  have h1 : s.checker ⊆ (d.targetUri, d.targetRange.start) :: s.checker :=
    List.subset_cons_self _ _
  cases hL : env.linkedCode d.targetUri with
  | none =>
    simp only [processDefinition, hL]
    exact h1
  | some lcd =>
    simp only [processDefinition, hL]
    refine List.Subset.trans h1 ?_
    have h2 := foldl_checker_sub_pair _ (mirrorStep_checker_sub r hr lcd od d)
      (lcd.linked d.targetSelectionRange.start)
      ({ s with checker := (d.targetUri, d.targetRange.start) :: s.checker }, false)
    split <;> simpa using h2

/-- The search only grows the checker. -/
theorem withLinkedCode_checker_sub (env : SearchEnv) :
    ∀ (fuel : Nat) (u : String) (p : Pos) (o : Option LocationLink) (s : SearchState),
      s.checker ⊆ (withLinkedCode env fuel u p o s).checker := by
  intro fuel
  induction fuel with
  | zero => intro u p o s; simp [withLinkedCode]
  | succ f ih =>
    intro u p o s
    simp only [withLinkedCode]
    split
    · exact List.Subset.refl _
    · split
      · exact List.Subset.refl _
      · refine List.Subset.trans (List.subset_cons_self (u, p) s.checker) ?_
        exact foldl_checker_sub _ (fun s' d => processDefinition_checker_sub env _ ih o s' d)
          _ ⟨(u, p) :: s.checker, s.result, s.calls + 1⟩

/-- A visited entry point returns the state unchanged. -/
theorem withLinkedCode_visited (env : SearchEnv) (fuel : Nat) (u : String) (p : Pos)
    (o : Option LocationLink) (s : SearchState) (h : (u, p) ∈ s.checker) :
    withLinkedCode env (fuel + 1) u p o s = s := by
  simp only [withLinkedCode]
  split
  · rfl
  · rw [if_pos h]

/-- An unvisited entry point gets inserted into the checker. -/
theorem withLinkedCode_inserts (env : SearchEnv) (fuel : Nat) (u : String) (p : Pos)
    (o : Option LocationLink) (s : SearchState)
    (api : String → Pos → List LocationLink) (hapi : env.api = some api)
    (h : (u, p) ∉ s.checker) :
    (u, p) ∈ (withLinkedCode env (fuel + 1) u p o s).checker := by
  simp only [withLinkedCode, hapi]
  rw [if_neg h]
  refine foldl_checker_sub _
    (fun s' d => processDefinition_checker_sub env _ (withLinkedCode_checker_sub env fuel) o s' d)
    (api u p) _ ?_
  exact List.mem_cons_self _ _

/-- Processing one candidate keeps the checker inside `U` (given the
candidate's own insertions and mirrors lie in `U`). -/
theorem processDefinition_checker_inU (env : SearchEnv) (U : Finset (String × Pos))
    (r : String → Pos → Option LocationLink → SearchState → SearchState)
    (hr : ∀ u p o t, (u, p) ∈ U → (∀ q ∈ t.checker, q ∈ U) →
      ∀ q ∈ (r u p o t).checker, q ∈ U)
    (od : Option LocationLink) (s : SearchState) (d : LocationLink)
    (hdT : (d.targetUri, d.targetRange.start) ∈ U)
    (hdM : ∀ lcd, env.linkedCode d.targetUri = some lcd →
      ∀ lp ∈ lcd.linked d.targetSelectionRange.start, (lcd.uri, lp) ∈ U)
    (hs : ∀ q ∈ s.checker, q ∈ U) :
    ∀ q ∈ (processDefinition env r od s d).checker, q ∈ U := by
  have hs1 : ∀ q ∈ (d.targetUri, d.targetRange.start) :: s.checker, q ∈ U := by
    intro q hq
    rcases List.mem_cons.mp hq with rfl | hq2
    · exact hdT
    · exact hs q hq2
  cases hL : env.linkedCode d.targetUri with
  | none =>
    simp only [processDefinition, hL]
    exact hs1
  | some lcd =>
    simp only [processDefinition, hL]
    have hfold := foldl_inv_pair (fun t => ∀ q ∈ t.checker, q ∈ U)
      (mirrorStep r lcd od d) (lcd.linked d.targetSelectionRange.start)
      ({ s with checker := (d.targetUri, d.targetRange.start) :: s.checker }, false)
      (fun sb' lp hlp hP => by
        unfold mirrorStep
        split
        · exact hP
        · exact hr lcd.uri lp _ sb'.1 (hdM lcd hL lp hlp) hP)
      hs1
    split <;> simpa using hfold

/-- The whole search keeps the checker inside a closed universe. -/
theorem withLinkedCode_checker_inU (env : SearchEnv) (U : Finset (String × Pos))
    (hclosed : EnvClosed env U) :
    ∀ (fuel : Nat) (u : String) (p : Pos) (o : Option LocationLink) (s : SearchState),
      (u, p) ∈ U → (∀ q ∈ s.checker, q ∈ U) →
      ∀ q ∈ (withLinkedCode env fuel u p o s).checker, q ∈ U := by
  intro fuel
  induction fuel with
  | zero => intro u p o s hU hs; simpa [withLinkedCode] using hs
  | succ f ih =>
    intro u p o s hU hs
    simp only [withLinkedCode]
    split
    · exact hs
    · next api hapi =>
      split
      · exact hs
      · next hmem =>
        refine foldl_inv (fun t => ∀ q ∈ t.checker, q ∈ U) _ _ _ ?_ ?_
        · intro s' d hd hP
          exact processDefinition_checker_inU env U _ ih o s' d
            (hclosed api hapi u p d hd).1 (hclosed api hapi u p d hd).2 hP
        · intro q hq
          rcases List.mem_cons.mp hq with rfl | hq2
          · exact hU
          · exact hs q hq2

/-! ### Stabilization: sufficient fuel gives a fuel-independent result -/

/-- The mirror fold is insensitive to the choice of recursive call as long
as the two calls agree above a checker lower bound `C`. -/
theorem mirrorFold_congr (U : Finset (String × Pos))
    (r₁ r₂ : String → Pos → Option LocationLink → SearchState → SearchState)
    (C : List (String × Pos))
    (hmono : ∀ u p o s, s.checker ⊆ (r₁ u p o s).checker)
    (hagree : ∀ u p o t, (u, p) ∈ U → C ⊆ t.checker → r₁ u p o t = r₂ u p o t)
    (lcd : LinkedDoc) (od : Option LocationLink) (d : LocationLink) :
    ∀ (lps : List Pos), (∀ lp ∈ lps, (lcd.uri, lp) ∈ U) →
      ∀ (sb : SearchState × Bool), C ⊆ sb.1.checker →
        lps.foldl (mirrorStep r₁ lcd od d) sb = lps.foldl (mirrorStep r₂ lcd od d) sb := by
  intro lps
  induction lps with
  | nil => intro _ sb _; simp
  | cons lp rest ih =>
    intro hU sb hC
    rw [List.foldl_cons, List.foldl_cons]
    by_cases hmem : (lcd.uri, lp) ∈ sb.1.checker
    · rw [show mirrorStep r₁ lcd od d sb lp = sb from by unfold mirrorStep; rw [if_pos hmem],
        show mirrorStep r₂ lcd od d sb lp = sb from by unfold mirrorStep; rw [if_pos hmem]]
      exact ih (fun x hx => hU x (List.mem_cons_of_mem _ hx)) sb hC
    · have heq := hagree lcd.uri lp (some (od.getD d)) sb.1
        (hU lp (List.mem_cons_self _ _)) hC
      rw [show mirrorStep r₁ lcd od d sb lp =
          (r₁ lcd.uri lp (some (od.getD d)) sb.1, true) from by
        unfold mirrorStep; rw [if_neg hmem],
        show mirrorStep r₂ lcd od d sb lp =
          (r₂ lcd.uri lp (some (od.getD d)) sb.1, true) from by
        unfold mirrorStep; rw [if_neg hmem]]
      rw [← heq]
      exact ih (fun x hx => hU x (List.mem_cons_of_mem _ hx)) _
        (List.Subset.trans hC (hmono lcd.uri lp _ sb.1))

/-- Candidate processing is insensitive to the choice of recursive call
above a checker lower bound. -/
theorem processDefinition_congr (env : SearchEnv) (U : Finset (String × Pos))
    (r₁ r₂ : String → Pos → Option LocationLink → SearchState → SearchState)
    (C : List (String × Pos))
    (hmono : ∀ u p o s, s.checker ⊆ (r₁ u p o s).checker)
    (hagree : ∀ u p o t, (u, p) ∈ U → C ⊆ t.checker → r₁ u p o t = r₂ u p o t)
    (od : Option LocationLink) (s : SearchState) (d : LocationLink)
    (hdM : ∀ lcd, env.linkedCode d.targetUri = some lcd →
      ∀ lp ∈ lcd.linked d.targetSelectionRange.start, (lcd.uri, lp) ∈ U)
    (hC : C ⊆ s.checker) :
    processDefinition env r₁ od s d = processDefinition env r₂ od s d := by
  cases hL : env.linkedCode d.targetUri with
  | none => simp only [processDefinition, hL]
  | some lcd =>
    simp only [processDefinition, hL]
    rw [mirrorFold_congr U r₁ r₂ C hmono hagree lcd od d _ (hdM lcd hL) _
      (List.Subset.trans hC (List.subset_cons_self _ _))]

/-- The candidate fold is insensitive to the choice of recursive call above
a checker lower bound. -/
theorem defsFold_congr (env : SearchEnv) (U : Finset (String × Pos))
    (r₁ r₂ : String → Pos → Option LocationLink → SearchState → SearchState)
    (C : List (String × Pos))
    (hmono : ∀ u p o s, s.checker ⊆ (r₁ u p o s).checker)
    (hagree : ∀ u p o t, (u, p) ∈ U → C ⊆ t.checker → r₁ u p o t = r₂ u p o t)
    (od : Option LocationLink) :
    ∀ (ds : List LocationLink),
      (∀ d ∈ ds, ∀ lcd, env.linkedCode d.targetUri = some lcd →
        ∀ lp ∈ lcd.linked d.targetSelectionRange.start, (lcd.uri, lp) ∈ U) →
      ∀ (s : SearchState), C ⊆ s.checker →
        ds.foldl (processDefinition env r₁ od) s = ds.foldl (processDefinition env r₂ od) s := by
  intro ds
  induction ds with
  | nil => intro _ s _; simp
  | cons d rest ih =>
    intro hds s hC
    rw [List.foldl_cons, List.foldl_cons]
    have heq := processDefinition_congr env U r₁ r₂ C hmono hagree od s d
      (hds d (List.mem_cons_self _ _)) hC
    rw [heq]
    refine ih (fun x hx => hds x (List.mem_cons_of_mem _ hx)) _ ?_
    rw [← heq]
    exact List.Subset.trans hC (processDefinition_checker_sub env r₁ hmono od s d)

/-- With fuel above the number of unvisited universe pairs the search
result does not depend on the exact fuel. -/
theorem withLinkedCode_stabilizes (env : SearchEnv) (U : Finset (String × Pos))
    (hclosed : EnvClosed env U) :
    ∀ (n m : Nat) (u : String) (p : Pos) (o : Option LocationLink) (s : SearchState),
      (u, p) ∈ U →
      (U.filter (fun q => q ∉ s.checker)).card < n →
      (U.filter (fun q => q ∉ s.checker)).card < m →
      withLinkedCode env n u p o s = withLinkedCode env m u p o s := by
  intro n
  induction n using Nat.strong_induction_on with
  | _ n ihn =>
    intro m u p o s hU hn hm
    obtain ⟨n', rfl⟩ : ∃ n', n = n' + 1 := ⟨n - 1, by omega⟩
    obtain ⟨m', rfl⟩ : ∃ m', m = m' + 1 := ⟨m - 1, by omega⟩
    simp only [withLinkedCode]
    split
    · rfl
    · next api hapi =>
      by_cases hmem : (u, p) ∈ s.checker
      · rw [if_pos hmem, if_pos hmem]
      · rw [if_neg hmem, if_neg hmem]
        refine defsFold_congr env U (withLinkedCode env n') (withLinkedCode env m')
          ((u, p) :: s.checker) (withLinkedCode_checker_sub env n') ?_ o (api u p)
          (fun d hd => (hclosed api hapi u p d hd).2) _ (List.Subset.refl _)
        intro u' p' o' t hU' hCt
        have hsub : U.filter (fun q => q ∉ t.checker) ⊆
            U.filter (fun q => q ∉ (u, p) :: s.checker) := by
          intro q hq
          rw [Finset.mem_filter] at hq ⊢
          exact ⟨hq.1, fun hmem2 => hq.2 (hCt hmem2)⟩
        have hlt : (U.filter (fun q => q ∉ (u, p) :: s.checker)).card <
            (U.filter (fun q => q ∉ s.checker)).card := by
          refine Finset.card_lt_card ?_
          refine (Finset.ssubset_iff_of_subset ?_).mpr ⟨(u, p), ?_, ?_⟩
          · intro q hq
            rw [Finset.mem_filter] at hq ⊢
            exact ⟨hq.1, fun hmem2 => hq.2 (List.mem_cons_of_mem _ hmem2)⟩
          · rw [Finset.mem_filter]
            exact ⟨hU, hmem⟩
          · rw [Finset.mem_filter]
            push_neg
            intro _
            exact List.mem_cons_self _ _
        have hle := Finset.card_le_card hsub
        exact ihn n' (by omega) m' u' p' o' t hU' (by omega) (by omega)

/-! ### Origin propagation through mirror recursion -/

/-- Candidate processing under an inherited origin link only appends links
that carry the origin link's `originSelectionRange`. -/
theorem processDefinition_origin (env : SearchEnv)
    (r : String → Pos → Option LocationLink → SearchState → SearchState)
    (o : LocationLink)
    (hr : ∀ u p t, ∀ l ∈ (r u p (some o) t).result,
      l ∈ t.result ∨ l.originSelectionRange = o.originSelectionRange)
    (s : SearchState) (d : LocationLink) :
    ∀ l ∈ (processDefinition env r (some o) s d).result,
      l ∈ s.result ∨ l.originSelectionRange = o.originSelectionRange := by
  cases hL : env.linkedCode d.targetUri with
  | none =>
    simp only [processDefinition, hL]
    intro l hl
    rcases List.mem_append.mp hl with hl2 | hl2
    · exact Or.inl hl2
    · right
      rw [List.mem_singleton.mp hl2]
      rfl
  | some lcd =>
    simp only [processDefinition, hL]
    have hfold := foldl_inv_pair
      (fun t => ∀ l ∈ t.result, l ∈ s.result ∨ l.originSelectionRange = o.originSelectionRange)
      (mirrorStep r lcd (some o) d) (lcd.linked d.targetSelectionRange.start)
      ({ s with checker := (d.targetUri, d.targetRange.start) :: s.checker }, false)
      (fun sb' lp _ hP => by
        unfold mirrorStep
        split
        · exact hP
        · intro l hl
          simp only [Option.getD_some] at hl
          rcases hr lcd.uri lp sb'.1 l hl with hl2 | hl2
          · exact hP l hl2
          · exact Or.inr hl2)
      (fun l hl => Or.inl hl)
    split
    · exact hfold
    · intro l hl
      simp only [List.mem_append] at hl
      rcases hl with hl2 | hl2
      · exact hfold l hl2
      · right
        rw [List.mem_singleton.mp hl2]
        rfl

/-- Every link a search call with an inherited origin link adds to the
result list carries that origin link's `originSelectionRange`. -/
theorem withLinkedCode_origin (env : SearchEnv) :
    ∀ (fuel : Nat) (u : String) (p : Pos) (o : LocationLink) (s : SearchState),
      ∀ l ∈ (withLinkedCode env fuel u p (some o) s).result,
        l ∈ s.result ∨ l.originSelectionRange = o.originSelectionRange := by
  intro fuel
  induction fuel with
  | zero => intro u p o s l hl; exact Or.inl hl
  | succ f ih =>
    intro u p o s
    simp only [withLinkedCode]
    split
    · exact fun l hl => Or.inl hl
    · split
      · exact fun l hl => Or.inl hl
      · refine foldl_inv
          (fun t => ∀ l ∈ t.result,
            l ∈ s.result ∨ l.originSelectionRange = o.originSelectionRange) _ _ _ ?_ ?_
        · intro s' d _ hP
          exact fun l hl => by
            rcases processDefinition_origin env _ o (fun u' p' t => ih u' p' o t) s' d l hl with
              hl2 | hl2
            · exact hP l hl2
            · exact Or.inr hl2
        · exact fun l hl => Or.inl hl

/-! ### The `foundMirrorPosition` flag -/

/-- Once raised, the flag stays raised. -/
theorem mirrorFold_true (r : String → Pos → Option LocationLink → SearchState → SearchState)
    (lcd : LinkedDoc) (od : Option LocationLink) (d : LocationLink) :
    ∀ (lps : List Pos) (sb : SearchState × Bool), sb.2 = true →
      (lps.foldl (mirrorStep r lcd od d) sb).2 = true := by
  intro lps
  induction lps with
  | nil => intro sb h; simpa
  | cons lp rest ih =>
    intro sb h
    rw [List.foldl_cons]
    refine ih _ ?_
    unfold mirrorStep
    split
    · exact h
    · rfl

/-- A mirror position not yet visited when the loop starts raises the
flag. -/
theorem mirrorFold_found (r : String → Pos → Option LocationLink → SearchState → SearchState)
    (lcd : LinkedDoc) (od : Option LocationLink) (d : LocationLink) :
    ∀ (lps : List Pos) (t : SearchState),
      (∃ lp ∈ lps, (lcd.uri, lp) ∉ t.checker) →
      (lps.foldl (mirrorStep r lcd od d) (t, false)).2 = true := by
  intro lps
  induction lps with
  | nil => intro t h; simp at h
  | cons lp rest ih =>
    intro t hex
    rw [List.foldl_cons]
    by_cases hmem : (lcd.uri, lp) ∈ t.checker
    · rw [show mirrorStep r lcd od d (t, false) lp = (t, false) from by
        unfold mirrorStep; rw [if_pos hmem]]
      refine ih t ?_
      rcases hex with ⟨w, hw, hnw⟩
      rcases List.mem_cons.mp hw with rfl | hw2
      · exact absurd hmem hnw
      · exact ⟨w, hw2, hnw⟩
    · rw [show mirrorStep r lcd od d (t, false) lp =
        (r lcd.uri lp (some (od.getD d)) t, true) from by
        unfold mirrorStep; rw [if_neg hmem]]
      exact mirrorFold_true r lcd od d rest _ rfl

/-- If every mirror position is already visited the loop is a no-op. -/
theorem mirrorFold_none (r : String → Pos → Option LocationLink → SearchState → SearchState)
    (lcd : LinkedDoc) (od : Option LocationLink) (d : LocationLink) :
    ∀ (lps : List Pos) (t : SearchState) (b : Bool),
      (∀ lp ∈ lps, (lcd.uri, lp) ∈ t.checker) →
      lps.foldl (mirrorStep r lcd od d) (t, b) = (t, b) := by
  intro lps
  induction lps with
  | nil => intro t b _; simp
  | cons lp rest ih =>
    intro t b hall
    rw [List.foldl_cons]
    rw [show mirrorStep r lcd od d (t, b) lp = (t, b) from by
      unfold mirrorStep; rw [if_pos (hall lp (List.mem_cons_self _ _))]]
    exact ih t b (fun x hx => hall x (List.mem_cons_of_mem _ hx))

/-! ### Cancellation is never read inside the recursion -/

/-- Candidate processing only depends on the linked-code view of the
environment and the recursive call. -/
theorem processDefinition_env_congr (env₁ env₂ : SearchEnv)
    (r₁ r₂ : String → Pos → Option LocationLink → SearchState → SearchState)
    (od : Option LocationLink)
    (hL : env₁.linkedCode = env₂.linkedCode) (hr : r₁ = r₂) :
    processDefinition env₁ r₁ od = processDefinition env₂ r₂ od := by
  subst hr
  funext s d
  unfold processDefinition
  rw [hL]

/-- The recursive search never consults the cancellation token. -/
theorem withLinkedCode_cancelled_congr (env : SearchEnv) (c : Nat → Bool) :
    ∀ (fuel : Nat) (u : String) (p : Pos) (o : Option LocationLink) (s : SearchState),
      withLinkedCode { env with cancelled := c } fuel u p o s =
        withLinkedCode env fuel u p o s := by
  intro fuel
  induction fuel with
  | zero => intro u p o s; rfl
  | succ f ih =>
    intro u p o s
    simp only [withLinkedCode]
    have hpd : processDefinition { env with cancelled := c }
        (withLinkedCode { env with cancelled := c } f) o =
        processDefinition env (withLinkedCode env f) o := by
      refine processDefinition_env_congr _ _ _ _ o rfl ?_
      funext u' p' o' s'
      exact ih u' p' o' s'
    rw [hpd]

/-! ### Document-cache lemmas -/

/-- A hit in the left part of an association list survives appending. -/
theorem alookup_append_some {α β : Type} [DecidableEq α] :
    ∀ (l l' : List (α × β)) (k : α) (b : β),
      alookup l k = some b → alookup (l ++ l') k = some b := by
  intro l
  induction l with
  | nil => intro l' k b h; simp [alookup] at h
  | cons e rest ih =>
    intro l' k b h
    obtain ⟨a, v⟩ := e
    rw [List.cons_append]
    rw [alookup] at h ⊢
    by_cases hak : a = k
    · rwa [if_pos hak] at h ⊢
    · rw [if_neg hak] at h ⊢
      exact ih l' k b h

/-- Appending a fresh key makes it found. -/
theorem alookup_append_new {α β : Type} [DecidableEq α] :
    ∀ (l : List (α × β)) (k : α) (b : β),
      alookup l k = none → alookup (l ++ [(k, b)]) k = some b := by
  intro l
  induction l with
  | nil => intro k b _; simp [alookup]
  | cons e rest ih =>
    intro k b h
    obtain ⟨a, v⟩ := e
    rw [alookup] at h
    rw [List.cons_append, alookup]
    by_cases hak : a = k
    · rw [if_pos hak] at h; simp at h
    · rw [if_neg hak] at h ⊢
      exact ih k b h

/-- A memo hit returns the stored document and leaves the store alone. -/
theorem documentsGet_memoized (st : DocStoreState) (u lid : String) (snap : Snapshot)
    (d : TextDocumentM) (h : alookup st.snapshot2Doc (snap.id, u) = some d) :
    documentsGet st u lid snap = (d, st) := by
  simp only [documentsGet, h]

/-- After a call, the requested pair is memoized to the returned document. -/
theorem documentsGet_establishes (st : DocStoreState) (u lid : String) (snap : Snapshot) :
    alookup (documentsGet st u lid snap).2.snapshot2Doc (snap.id, u) =
      some (documentsGet st u lid snap).1 := by
  cases h : alookup st.snapshot2Doc (snap.id, u) with
  | some d => simp only [documentsGet, h]
  | none =>
    simp only [documentsGet, h]
    exact alookup_append_new _ _ _ h

/-- Memo entries survive any later call (append-only store). -/
theorem documentsGet_preserves (st : DocStoreState) (u lid : String) (snap : Snapshot)
    (k : Nat × String) (d : TextDocumentM) (h : alookup st.snapshot2Doc k = some d) :
    alookup (documentsGet st u lid snap).2.snapshot2Doc k = some d := by
  cases hc : alookup st.snapshot2Doc (snap.id, u) with
  | some d2 => simpa only [documentsGet, hc] using h
  | none =>
    simp only [documentsGet, hc]
    exact alookup_append_some _ _ _ _ h

/-- Memo entries survive any later call sequence. -/
theorem runGets_preserves (calls : List GetCall) :
    ∀ (st : DocStoreState) (k : Nat × String) (d : TextDocumentM),
      alookup st.snapshot2Doc k = some d →
      alookup (runGets st calls).snapshot2Doc k = some d := by
  induction calls with
  | nil => intro st k d h; simpa [runGets]
  | cons c cs ih =>
    intro st k d h
    exact ih _ k d (documentsGet_preserves st c.uri c.languageId c.snapshot k d h)

/-- The per-uri counter after pushing one entry. -/
theorem versionCounter_cons (sd : List ((Nat × String) × TextDocumentM))
    (l : List (String × Nat)) (u : String) (v : Nat) (u' : String) :
    versionCounter ⟨sd, (u, v) :: l⟩ u' =
      if u = u' then v else versionCounter ⟨sd, l⟩ u' := by
  by_cases h : u = u' <;> simp [versionCounter, alookup, h]

/-- One call never decrements any per-uri counter. -/
theorem versionCounter_get_le (st : DocStoreState) (u lid : String) (snap : Snapshot)
    (u' : String) :
    versionCounter st u' ≤ versionCounter (documentsGet st u lid snap).2 u' := by
  cases hc : alookup st.snapshot2Doc (snap.id, u) with
  | some d => simp [documentsGet, hc]
  | none =>
    simp only [documentsGet, hc]
    rw [versionCounter_cons]
    by_cases h : u = u'
    · rw [if_pos h]
      subst h
      have : versionCounter st u = versionCounter ⟨st.snapshot2Doc, st.documentVersions⟩ u := rfl
      omega
    · rw [if_neg h]
      exact Nat.le_refl _

/-- A call sequence never decrements any per-uri counter. -/
theorem runGets_counter_le (calls : List GetCall) :
    ∀ (st : DocStoreState) (u' : String),
      versionCounter st u' ≤ versionCounter (runGets st calls) u' := by
  induction calls with
  | nil => intro st u'; simp [runGets]
  | cons c cs ih =>
    intro st u'
    exact Nat.le_trans (versionCounter_get_le st c.uri c.languageId c.snapshot u')
      (ih _ u')

/-- `versionCounter` ignores the memo component. -/
theorem versionCounter_ignores_memo (sd sd' : List ((Nat × String) × TextDocumentM))
    (l : List (String × Nat)) (u : String) :
    versionCounter ⟨sd, l⟩ u = versionCounter ⟨sd', l⟩ u := rfl

/-- One call preserves the version-discipline invariant. -/
theorem docInv_get (st : DocStoreState) (u lid : String) (snap : Snapshot)
    (h : DocInv st) : DocInv (documentsGet st u lid snap).2 := by
  cases hc : alookup st.snapshot2Doc (snap.id, u) with
  | some d => simpa [documentsGet, hc] using h
  | none =>
    obtain ⟨h1, h2⟩ := h
    simp only [documentsGet, hc]
    constructor
    · intro e he
      rcases List.mem_append.mp he with he2 | he2
      · have hold := h1 e he2
        rw [versionCounter_cons]
        by_cases hu : u = e.1.2
        · rw [if_pos hu]
          rw [← hu] at hold
          have : versionCounter st e.1.2 =
              versionCounter ⟨st.snapshot2Doc, st.documentVersions⟩ e.1.2 := rfl
          rw [← hu] at this
          omega
        · rw [if_neg hu]
          exact hold
      · rw [List.mem_singleton.mp he2]
        rw [versionCounter_cons]
        simp
    · rw [List.pairwise_append]
      refine ⟨h2, List.pairwise_singleton _ _, ?_⟩
      intro a ha b hb huri
      rw [List.mem_singleton.mp hb] at huri ⊢
      have := h1 a ha
      rw [huri] at this
      exact this

/-- A call sequence preserves the version-discipline invariant. -/
theorem docInv_runGets (calls : List GetCall) :
    ∀ (st : DocStoreState), DocInv st → DocInv (runGets st calls) := by
  induction calls with
  | nil => intro st h; simpa [runGets]
  | cons c cs ih =>
    intro st h
    exact ih _ (docInv_get st c.uri c.languageId c.snapshot h)

/-- The empty store satisfies the invariant. -/
theorem docInv_empty : DocInv emptyDocStore := by
  constructor <;> simp [emptyDocStore]

/-! ### Projector lemmas -/

/-- The loop returns the first containing range found. -/
theorem tspGo_find_some (position : Pos) (r : Range) :
    ∀ (l : List Range) (acc : Option Range),
      l.find? (fun rg => containsPos rg position) = some r →
      tspGo position l acc = some r := by
  intro l
  induction l with
  | nil => intro acc h; simp at h
  | cons a rest ih =>
    intro acc hf
    by_cases hc : containsPos a position
    · rw [List.find?_cons_of_pos (p := fun rg => containsPos rg position) rest hc] at hf
      simp only [tspGo, hc, if_true]
      exact hf
    · rw [List.find?_cons_of_neg (p := fun rg => containsPos rg position) rest hc] at hf
      simp [tspGo, hc]
      exact ih _ hf

/-- With a fallback already chosen and no containing range, the loop keeps
the fallback. -/
theorem tspGo_keep_acc (position : Pos) :
    ∀ (l : List Range) (x : Range), (∀ rg ∈ l, ¬containsPos rg position) →
      tspGo position l (some x) = some x := by
  intro l
  induction l with
  | nil => intro x _; rfl
  | cons a rest ih =>
    intro x hall
    have hna := hall a (List.mem_cons_self _ _)
    simp [tspGo, hna]
    exact ih x (fun rg hrg => hall rg (List.mem_cons_of_mem _ hrg))

/-- If no range contains the position the loop falls back to the first
enumerated range. -/
theorem tspGo_find_none (position : Pos) :
    ∀ (l : List Range), l.find? (fun rg => containsPos rg position) = none →
      tspGo position l none = l.head? := by
  intro l
  cases l with
  | nil => intro _; rfl
  | cons a rest =>
    intro hf
    rw [List.find?_eq_none] at hf
    have hna := hf a (List.mem_cons_self _ _)
    simp [tspGo, hna]
    exact tspGo_keep_acc position rest a (fun rg hrg => hf rg (List.mem_cons_of_mem _ hrg))

/-! ### Embedded-uri addressing lemmas -/

/-- `path.substring(1)` undoes the `'/' +` of the encoder. -/
theorem substringFrom_slash (s : String) : substringFrom ("/" ++ s) 1 = s := by
  cases s with
  | mk d =>
    apply String.ext
    have h : ("/" : String).data = ['/'] := rfl
    simp [substringFrom, String.data_append, h]

/-- The synthetic uri produced by `encodeEmbeddedDocumentUri` component by
component (the constructor fix-ups do not touch it). -/
theorem encodeEmbedded_eq (u : URIModel) (id : String) :
    encodeEmbeddedDocumentUri u id =
      ⟨embeddedContentScheme, encodeURIComponent id,
        "/" ++ encodeURIComponent (asFormatted u), "", ""⟩ := by
  have hs : schemeFix embeddedContentScheme = embeddedContentScheme := by decide
  have hr : ¬(embeddedContentScheme = "https" ∨ embeddedContentScheme = "http" ∨
      embeddedContentScheme = "file") := by decide
  unfold encodeEmbeddedDocumentUri URIfrom
  rw [hs, referenceResolution, if_neg hr]

/-- C4 (amended).  `decodeEmbeddedDocumentUri ∘ encodeEmbeddedDocumentUri`
returns the pair `(URI.parse(u.toString()), id)`: the embedded-code id
round-trips exactly, even when it contains reserved uri characters or
uppercase letters (component-wise `encodeURIComponent` escaping); the
source uri round-trips exactly whenever it is stable under vscode-uri's
`parse ∘ toString` normalization (which lower-cases the authority and
Windows drive letters), and any uri whose scheme is not the
embedded-content scheme decodes to `none` without error. -/
theorem embedded_uri_roundtrip (u : URIModel) (id : String) :
    decodeEmbeddedDocumentUri (encodeEmbeddedDocumentUri u id) =
      some (parseUri (asFormatted u), id)
    ∧ (parseUri (asFormatted u) = u →
      decodeEmbeddedDocumentUri (encodeEmbeddedDocumentUri u id) = some (u, id))
    ∧ (∀ v : URIModel, v.scheme ≠ embeddedContentScheme →
      decodeEmbeddedDocumentUri v = none) := by
  have h1 : decodeEmbeddedDocumentUri (encodeEmbeddedDocumentUri u id) =
      some (parseUri (asFormatted u), id) := by
    rw [encodeEmbedded_eq]
    simp only [decodeEmbeddedDocumentUri, if_true]
    rw [substringFrom_slash, decodeURIComponent_encodeURIComponent,
      decodeURIComponent_encodeURIComponent]
  refine ⟨h1, fun hstable => by rw [h1, hstable], fun v hv => ?_⟩
  simp only [decodeEmbeddedDocumentUri]
  rw [if_neg hv]

/-- C4, counterexample to the claim as stated.  For the source uri
`file://WS/x` (which `URI.parse` yields with its authority case
preserved), the decode of the encode returns the authority lower-cased —
`toString` lower-cases the authority host — so the result is not exactly
`(u, id)`. -/
theorem embedded_uri_roundtrip_counterexample :
    uUpper = parseUri "file://WS/x"
    ∧ uUpper.authority = "WS"
    ∧ decodeEmbeddedDocumentUri (encodeEmbeddedDocumentUri uUpper "x") =
      some (⟨"file", "ws", "/x", "", ""⟩, "x")
    ∧ decodeEmbeddedDocumentUri (encodeEmbeddedDocumentUri uUpper "x") ≠
      some (uUpper, "x") :=
  ⟨rfl, by decide, by decide, by decide⟩

/-- C4, witness: a normalization-stable uri with a reserved character in
its path and an id with slash, question mark, space and an uppercase
letter round-trip exactly, and a plain `file:` uri fails decoding to
`none`. -/
theorem embedded_uri_roundtrip_witness :
    decodeEmbeddedDocumentUri (encodeEmbeddedDocumentUri uStable idReserved) =
      some (uStable, idReserved)
    ∧ decodeEmbeddedDocumentUri ⟨"file", "", "/a", "", ""⟩ = none := by
  constructor
  · exact (embedded_uri_roundtrip uStable idReserved).2.1 (by decide)
  · exact (embedded_uri_roundtrip uStable idReserved).2.2 _ (by decide)

/-- C10.  `documents.get`: a memo hit returns the stored document object
and leaves the store untouched; the memo is append-only, so two calls with
the same (snapshot identity, uri) pair — any other calls in between, even
with a different language id — return the identical document; a fresh pair
is assigned the current per-uri counter value and bumps the counter;
counters never decrease across any call sequence; and every store
reachable from the empty store keeps, per uri, strictly increasing
versions in first-seen order (hence versions are never reused). -/
theorem documents_get_memoization :
    (∀ (st : DocStoreState) (u lid : String) (snap : Snapshot) (d : TextDocumentM),
      alookup st.snapshot2Doc (snap.id, u) = some d → documentsGet st u lid snap = (d, st))
    ∧ (∀ (st : DocStoreState) (u lid lid2 : String) (snap : Snapshot) (calls : List GetCall),
      (documentsGet (runGets (documentsGet st u lid snap).2 calls) u lid2 snap).1 =
        (documentsGet st u lid snap).1)
    ∧ (∀ (st : DocStoreState) (u lid : String) (snap : Snapshot),
      alookup st.snapshot2Doc (snap.id, u) = none →
      (documentsGet st u lid snap).1.version = versionCounter st u ∧
      versionCounter (documentsGet st u lid snap).2 u = versionCounter st u + 1)
    ∧ (∀ (st : DocStoreState) (calls : List GetCall) (u' : String),
      versionCounter st u' ≤ versionCounter (runGets st calls) u')
    ∧ (∀ calls : List GetCall, DocInv (runGets emptyDocStore calls)) := by
  refine ⟨documentsGet_memoized, ?_, ?_,
    fun st calls u' => runGets_counter_le calls st u',
    fun calls => docInv_runGets calls emptyDocStore docInv_empty⟩
  · intro st u lid lid2 snap calls
    have h1 := documentsGet_establishes st u lid snap
    have h2 := runGets_preserves calls _ _ _ h1
    rw [documentsGet_memoized _ _ _ _ _ h2]
  · intro st u lid snap h
    constructor
    · simp [documentsGet, h]
    · simp only [documentsGet, h]
      rw [versionCounter_cons, if_pos rfl]

/-- C10, witness: two snapshots of the same uri get versions 0 and 1; the
repeated request for the first snapshot (after another call, with another
language id) returns the identical memoized document; the reachable store
satisfies the version discipline. -/
theorem documents_get_memoization_witness :
    (documentsGet emptyDocStore "u" "ts" snapA).1.version = 0
    ∧ (documentsGet (documentsGet emptyDocStore "u" "ts" snapA).2 "u" "ts" snapB).1.version = 1
    ∧ (documentsGet (runGets (documentsGet emptyDocStore "u" "ts" snapA).2
        [⟨"u", "ts", snapB⟩]) "u" "other" snapA).1 =
      (documentsGet emptyDocStore "u" "ts" snapA).1
    ∧ documentsGet (documentsGet emptyDocStore "u" "ts" snapA).2 "u" "other" snapA =
      (⟨"u", "ts", 0, "text one"⟩, (documentsGet emptyDocStore "u" "ts" snapA).2)
    ∧ DocInv (runGets emptyDocStore [⟨"u", "ts", snapA⟩, ⟨"u", "ts", snapB⟩]) := by
  refine ⟨by decide, by decide, ?_, ?_, ?_⟩
  · exact documents_get_memoization.2.1 emptyDocStore "u" "ts" "other" snapA
      [⟨"u", "ts", snapB⟩]
  · exact documents_get_memoization.1 _ "u" "other" snapA _ (by decide)
  · exact documents_get_memoization.2.2.2.2 _

/-! ### Search claims -/

/-- The cyclic concrete environment is closed under its universe. -/
theorem cEnv_closed : EnvClosed cEnv cU := by
  intro api hapi docUri pos d hd
  have hapi2 : some cApi = some api := hapi
  have hac := Option.some.inj hapi2
  subst hac
  unfold cApi at hd
  by_cases h1 : docUri = "g"
  · rw [if_pos h1] at hd
    by_cases h2 : pos = pSeed
    · rw [if_pos h2, List.mem_singleton] at hd
      subst hd
      refine ⟨by decide, ?_⟩
      intro lcd hlcd
      have hlcd2 : some (⟨"g", cLinked⟩ : LinkedDoc) = some lcd := hlcd
      have hl := Option.some.inj hlcd2
      subst hl
      intro lp hlp
      have hlp2 : lp ∈ cLinked pA := hlp
      rw [show cLinked pA = [pB] from rfl, List.mem_singleton] at hlp2
      subst hlp2
      decide
    · rw [if_neg h2] at hd
      by_cases h3 : pos = pB
      · rw [if_pos h3, List.mem_singleton] at hd
        subst hd
        refine ⟨by decide, ?_⟩
        intro lcd hlcd
        have hlcd2 : some (⟨"g", cLinked⟩ : LinkedDoc) = some lcd := hlcd
        have hl := Option.some.inj hlcd2
        subst hl
        intro lp hlp
        have hlp2 : lp ∈ cLinked pB := hlp
        rw [show cLinked pB = [pA] from rfl, List.mem_singleton] at hlp2
        subst hlp2
        decide
      · rw [if_neg h3] at hd
        simp at hd
  · rw [if_neg h1] at hd
    simp at hd

/-- C2.  Over any finite universe of (document uri, position) pairs closed
under the environment's analyzer targets and mirror positions — including
the cyclic mirror map where A mirrors B and B mirrors A — the search
stabilizes: any fuel beyond the number of not-yet-visited universe pairs
gives the same result, every call either returns the state unchanged on a
visited entry point or inserts its (uri, position) pair into the checker,
and the checker stays inside the universe. -/
theorem withLinkedCode_terminates (env : SearchEnv) (U : Finset (String × Pos)) (u : String)
    (p : Pos) (o : Option LocationLink) (s : SearchState)
    (hclosed : EnvClosed env U) (hU : (u, p) ∈ U) :
    (∀ n m : Nat, (U.filter (fun q => q ∉ s.checker)).card < n →
      (U.filter (fun q => q ∉ s.checker)).card < m →
      withLinkedCode env n u p o s = withLinkedCode env m u p o s)
    ∧ (∀ n : Nat, (u, p) ∈ s.checker → withLinkedCode env (n + 1) u p o s = s)
    ∧ (∀ (n : Nat) (api : String → Pos → List LocationLink), env.api = some api →
      (u, p) ∉ s.checker → (u, p) ∈ (withLinkedCode env (n + 1) u p o s).checker)
    ∧ (∀ n : Nat, (∀ q ∈ s.checker, q ∈ U) →
      ∀ q ∈ (withLinkedCode env n u p o s).checker, q ∈ U) :=
  ⟨fun n m hn hm => withLinkedCode_stabilizes env U hclosed n m u p o s hU hn hm,
    fun n h => withLinkedCode_visited env n u p o s h,
    fun n api hapi h => withLinkedCode_inserts env n u p o s api hapi h,
    fun n hs => withLinkedCode_checker_inU env U hclosed n u p o s hU hs⟩

/-- C2, witness: on the concrete A-mirrors-B-mirrors-A environment the
search from the seed gives the same answer at fuel 4 and fuel 9, that
answer is the single terminal link, and the visited set stays inside the
three reachable pairs. -/
theorem withLinkedCode_terminates_witness :
    withLinkedCode cEnv 4 "g" pSeed none s0 = withLinkedCode cEnv 9 "g" pSeed none s0
    ∧ (withLinkedCode cEnv 4 "g" pSeed none s0).result =
      [{ dB with originSelectionRange := some osrA }]
    ∧ (∀ q ∈ (withLinkedCode cEnv 4 "g" pSeed none s0).checker, q ∈ cU) := by
  have h := withLinkedCode_terminates cEnv cU "g" pSeed none s0 cEnv_closed (by decide)
  exact ⟨h.1 4 9 (by decide) (by decide), by decide, h.2.2.2 4 (by decide)⟩

/-- C1.  Inside every invocation of the recursive search (last conjunct:
one invocation is exactly the fold of the candidate step over the
analyzer's answer), a candidate is appended to the results exactly when no
linked-code map exists for its target or every mirror position of its
`targetSelectionRange.start` is already visited; as soon as at least one
not-yet-visited mirror position exists (and is therefore followed), the
candidate itself is not appended. -/
theorem candidate_emitted_iff (env : SearchEnv) (fuel : Nat) (od : Option LocationLink)
    (s : SearchState) (d : LocationLink) :
    (env.linkedCode d.targetUri = none →
      processDefinition env (withLinkedCode env fuel) od s d =
        { s with checker := (d.targetUri, d.targetRange.start) :: s.checker,
                 result := s.result ++ [emitDefinition od d] })
    ∧ (∀ lcd, env.linkedCode d.targetUri = some lcd →
      ((∀ lp ∈ lcd.linked d.targetSelectionRange.start,
          (lcd.uri, lp) ∈ (d.targetUri, d.targetRange.start) :: s.checker) →
        processDefinition env (withLinkedCode env fuel) od s d =
          { s with checker := (d.targetUri, d.targetRange.start) :: s.checker,
                   result := s.result ++ [emitDefinition od d] })
      ∧ ((∃ lp ∈ lcd.linked d.targetSelectionRange.start,
          (lcd.uri, lp) ∉ (d.targetUri, d.targetRange.start) :: s.checker) →
        processDefinition env (withLinkedCode env fuel) od s d =
          ((lcd.linked d.targetSelectionRange.start).foldl
            (mirrorStep (withLinkedCode env fuel) lcd od d)
            ({ s with checker := (d.targetUri, d.targetRange.start) :: s.checker },
              false)).1))
    ∧ (∀ (api : String → Pos → List LocationLink) (u : String) (p : Pos),
      env.api = some api → (u, p) ∉ s.checker →
      withLinkedCode env (fuel + 1) u p od s =
        (api u p).foldl (processDefinition env (withLinkedCode env fuel) od)
          { s with checker := (u, p) :: s.checker, calls := s.calls + 1 }) := by
  refine ⟨?_, ?_, ?_⟩
  · intro hL
    simp only [processDefinition, hL]
  · intro lcd hL
    constructor
    · intro hall
      simp only [processDefinition, hL]
      rw [mirrorFold_none (withLinkedCode env fuel) lcd od d _ _ _ hall]
      simp
    · intro hex
      have hfound := mirrorFold_found (withLinkedCode env fuel) lcd od d
        (lcd.linked d.targetSelectionRange.start)
        { s with checker := (d.targetUri, d.targetRange.start) :: s.checker } hex
      simp only [processDefinition, hL]
      rw [if_pos hfound]
  · intro api u p hapi h
    simp only [withLinkedCode, hapi]
    rw [if_neg h]

/-- C1, witness: on the concrete environment the seed candidate `dA` has
the not-yet-visited mirror `pB`, so the candidate step equals the bare
mirror fold and `dA` itself is not in the result list — the terminal link
found behind the mirror is. -/
theorem candidate_emitted_iff_witness :
    processDefinition cEnv (withLinkedCode cEnv 3) none s0Seed dA =
      ((cLinked pA).foldl (mirrorStep (withLinkedCode cEnv 3) ⟨"g", cLinked⟩ none dA)
        ({ s0Seed with checker := ("g", pA) :: s0Seed.checker }, false)).1
    ∧ emitDefinition none dA ∉
      (processDefinition cEnv (withLinkedCode cEnv 3) none s0Seed dA).result
    ∧ { dB with originSelectionRange := some osrA } ∈
      (processDefinition cEnv (withLinkedCode cEnv 3) none s0Seed dA).result := by
  refine ⟨?_, by decide, by decide⟩
  exact ((candidate_emitted_iff cEnv 3 none s0Seed dA).2.1 ⟨"g", cLinked⟩ rfl).2 (by decide)

/-- C3.  Every link that a recursive (mirror-following) search call — one
whose inherited origin link is present — appends to the result list
carries that origin link's `originSelectionRange`; and the first hop out
of a root candidate passes `originLink ?? candidate`, i.e. the candidate
itself when no origin was inherited and the inherited origin otherwise. -/
theorem origin_propagation (env : SearchEnv) :
    (∀ (fuel : Nat) (u : String) (p : Pos) (o : LocationLink) (s : SearchState),
      ∀ l ∈ (withLinkedCode env fuel u p (some o) s).result,
        l ∈ s.result ∨ l.originSelectionRange = o.originSelectionRange)
    ∧ (∀ (r : String → Pos → Option LocationLink → SearchState → SearchState)
        (lcd : LinkedDoc) (d : LocationLink) (sb : SearchState × Bool) (lp : Pos),
        (lcd.uri, lp) ∉ sb.1.checker →
        mirrorStep r lcd none d sb lp = (r lcd.uri lp (some d) sb.1, true))
    ∧ (∀ (r : String → Pos → Option LocationLink → SearchState → SearchState)
        (lcd : LinkedDoc) (o' d : LocationLink) (sb : SearchState × Bool) (lp : Pos),
        (lcd.uri, lp) ∉ sb.1.checker →
        mirrorStep r lcd (some o') d sb lp = (r lcd.uri lp (some o') sb.1, true)) := by
  refine ⟨withLinkedCode_origin env, ?_, ?_⟩
  · intro r lcd d sb lp h
    unfold mirrorStep
    rw [if_neg h]
    rfl
  · intro r lcd o' d sb lp h
    unfold mirrorStep
    rw [if_neg h]
    rfl

/-- C3, witness: the recursive call that resolves the mirror of seed
candidate `dA` emits the terminal candidate `dB` carrying `dA`'s
origin-selection-range, and the projector then maps that origin range back
to the source range `srcR2` surrounding the queried position. -/
theorem origin_propagation_witness :
    (withLinkedCode cEnv 3 "g" pB (some dA) ⟨[("g", pA), ("g", pSeed)], [], 1⟩).result =
      [{ dB with originSelectionRange := some osrA }]
    ∧ ({ dB with originSelectionRange := some osrA } : LocationLink).originSelectionRange =
      dA.originSelectionRange
    ∧ projectLinks env3 ApiName.provideDefinition "T" qPos
        [{ dB with originSelectionRange := some osrA }] =
      [{ dB with originSelectionRange := some srcR2 }] := by
  refine ⟨by decide, ?_, by decide⟩
  have h := (origin_propagation cEnv).1 3 "g" pB dA ⟨[("g", pA), ("g", pSeed)], [], 1⟩
    { dB with originSelectionRange := some osrA } (by decide)
  exact h.resolve_left (by decide)

/-- C5, counterexample to the claim as stated: the checker records the
candidate's `(targetUri, targetRange.start)` pair, not
`targetSelectionRange.start`.  After the seed search of `cEnv5` the
selection-start pair is absent from the visited set while the range-start
pair is present, and a later search call at the exact target-selection
position re-descends (it invokes the analyzer again instead of returning
immediately). -/
theorem visited_selection_start_counterexample :
    ("t5", d5.targetSelectionRange.start) ∉ st5.checker
    ∧ ("t5", d5.targetRange.start) ∈ st5.checker
    ∧ (withLinkedCode cEnv5 1 "t5" d5.targetSelectionRange.start none st5).calls =
      st5.calls + 1 :=
  ⟨by decide, by decide, by decide⟩

/-- C5 (amended).  For every candidate the pair
`(candidate.targetUri, candidate.targetRange.start)` is inserted into the
visited set immediately — the state feeding the mirror enumeration already
contains it — and a later search call at a visited (uri, position) pair
returns without re-descending. -/
theorem target_visited_before_mirrors (env : SearchEnv) (fuel : Nat)
    (od : Option LocationLink) (s : SearchState) (d : LocationLink) :
    ((d.targetUri, d.targetRange.start) ∈
      (processDefinition env (withLinkedCode env fuel) od s d).checker)
    ∧ (∀ lcd, env.linkedCode d.targetUri = some lcd →
      processDefinition env (withLinkedCode env fuel) od s d =
        (let sb := (lcd.linked d.targetSelectionRange.start).foldl
          (mirrorStep (withLinkedCode env fuel) lcd od d)
          ({ s with checker := (d.targetUri, d.targetRange.start) :: s.checker }, false);
        if sb.2 then sb.1
        else { sb.1 with result := sb.1.result ++ [emitDefinition od d] }))
    ∧ (∀ (u : String) (p : Pos) (o : Option LocationLink) (t : SearchState),
      (u, p) ∈ t.checker → withLinkedCode env (fuel + 1) u p o t = t) := by
  refine ⟨?_, ?_, fun u p o t h => withLinkedCode_visited env fuel u p o t h⟩
  · cases hL : env.linkedCode d.targetUri with
    | none =>
      simp only [processDefinition, hL]
      exact List.mem_cons_self _ _
    | some lcd =>
      simp only [processDefinition, hL]
      have hsub := foldl_checker_sub_pair _
        (mirrorStep_checker_sub _ (withLinkedCode_checker_sub env fuel) lcd od d)
        (lcd.linked d.targetSelectionRange.start)
        ({ s with checker := (d.targetUri, d.targetRange.start) :: s.checker }, false)
      have hmem := hsub (List.mem_cons_self _ _)
      split <;> simpa using hmem
  · intro lcd hL
    simp only [processDefinition, hL]

/-- C5 (amended), witness: processing `d5` puts its range-start pair into
the checker, and repeating the seed search on the already-visited seed
returns the state unchanged. -/
theorem target_visited_before_mirrors_witness :
    ("t5", d5.targetRange.start) ∈
      (processDefinition cEnv5 (withLinkedCode cEnv5 1) none s0 d5).checker
    ∧ withLinkedCode cEnv5 2 "h" pSeed none st5 = st5 := by
  refine ⟨(target_visited_before_mirrors cEnv5 1 none s0 d5).1, ?_⟩
  exact (target_visited_before_mirrors cEnv5 1 none s0 d5).2.2 "h" pSeed none st5 (by decide)

/-- C9, counterexample to the claim as stated: in `cEnv` the token is
signalled from the first analyzer invocation on, so the recursive
mirror-following call is entered with the token already signalled — the
claim predicts it returns immediately without invoking the analyzer,
keeping the invocation count at 1, but the run performs 2 invocations
(`withLinkedCode` never polls the token). -/
theorem cancellation_poll_counterexample :
    cEnv.cancelled 1 = true
    ∧ ¬(withLinkedCode cEnv 4 "g" pSeed none s0).calls ≤ 1
    ∧ (withLinkedCode cEnv 4 "g" pSeed none s0).calls = 2 :=
  ⟨rfl, by decide, by decide⟩

/-- C9 (amended).  Cancellation is polled exactly once, at the start of
the per-seed worker callback, before the recursive search begins: a
signalled token there makes the worker return immediately with no work
queued, and the recursive search itself never consults the token (its
result is invariant under replacing the token). -/
theorem cancellation_polled_once (env : SearchEnv) :
    (∀ (fuel : Nat) (u : String) (p : Pos), env.cancelled 0 = true →
      provideWorker env fuel u p = none)
    ∧ (∀ (fuel : Nat) (u : String) (p : Pos), env.cancelled 0 = false →
      provideWorker env fuel u p =
        some (withLinkedCode env fuel u p none ⟨[], [], 0⟩).result)
    ∧ (∀ (c : Nat → Bool) (fuel : Nat) (u : String) (p : Pos) (o : Option LocationLink)
        (s : SearchState),
        withLinkedCode { env with cancelled := c } fuel u p o s =
          withLinkedCode env fuel u p o s) := by
  refine ⟨?_, ?_, fun c fuel u p o s => withLinkedCode_cancelled_congr env c fuel u p o s⟩
  · intro fuel u p h
    simp [provideWorker, h]
  · intro fuel u p h
    simp [provideWorker, h]

/-- C9 (amended), witness: with the token signalled from the start the
worker returns `none` at once; and swapping the token function leaves the
concrete search run untouched. -/
theorem cancellation_polled_once_witness :
    provideWorker cEnvC 4 "g" pSeed = none
    ∧ withLinkedCode { cEnv with cancelled := fun _ => false } 4 "g" pSeed none s0 =
      withLinkedCode cEnv 4 "g" pSeed none s0 :=
  ⟨(cancellation_polled_once cEnvC).1 4 "g" pSeed rfl,
    (cancellation_polled_once cEnv).2.2 (fun _ => false) 4 "g" pSeed none s0⟩

/-! ### Projector claims -/

/-- C6.  For a link carrying an `originSelectionRange` while the seed map
is present, the projector picks the first enumerated source range that
contains the queried position (inclusive on both ends); when no enumerated
range contains it, the first range in enumeration order; and when the map
yields no source range at all, the whole link is removed from the
output. -/
theorem origin_refinement (env : ProjectorEnv) (aN : ApiName) (uri : String)
    (position : Pos) (link : LocationLink) (m : Range → List Range) (osr : Range)
    (hm : env.map = some m) (ho : link.originSelectionRange = some osr) :
    (∀ r : Range, (m osr).find? (fun rg => containsPos rg position) = some r →
      originStep env position link = some { link with originSelectionRange := some r })
    ∧ ((m osr).find? (fun rg => containsPos rg position) = none →
      originStep env position link =
        (m osr).head?.map (fun rg => { link with originSelectionRange := some rg }))
    ∧ (m osr = [] →
      originStep env position link = none ∧
      projectLink env aN uri position link = none) := by
  have hbase : originStep env position link =
      match tspGo position (m osr) none with
      | none => none
      | some r => some { link with originSelectionRange := some r } := by
    simp only [originStep, ho, hm, toSourcePositionPreferSurroundedPosition]
  refine ⟨?_, ?_, ?_⟩
  · intro r hf
    rw [hbase, tspGo_find_some position r (m osr) none hf]
  · intro hf
    rw [hbase, tspGo_find_none position (m osr) hf]
    cases m osr with
    | nil => rfl
    | cons a rest => rfl
  · intro hempty
    have h0 : originStep env position link = none := by
      rw [hbase, hempty]
      rfl
    exact ⟨h0, by simp [projectLink, h0]⟩

/-- C6, witness: with two candidate source ranges for the origin span, the
surrounding one wins; at a far-away position the first range is the
fallback; an origin span without any source range drops the link. -/
theorem origin_refinement_witness :
    originStep env6 qPos link6 = some { link6 with originSelectionRange := some srcR2 }
    ∧ originStep env6 ⟨50, 0⟩ link6 =
      ((mapC6 osrG).head?.map fun rg => { link6 with originSelectionRange := some rg })
    ∧ originStep env6 ⟨50, 0⟩ link6 = some { link6 with originSelectionRange := some srcR1 }
    ∧ projectLink env6 ApiName.provideDefinition "q" qPos
        { link6 with originSelectionRange := some rTgt } = none
    ∧ projectLinks env6 ApiName.provideDefinition "q" qPos [link6] =
      [{ link6 with originSelectionRange := some srcR2 }] := by
  refine ⟨?_, ?_, by decide, ?_, by decide⟩
  · exact (origin_refinement env6 ApiName.provideDefinition "q" qPos link6 mapC6 osrG
      rfl rfl).1 srcR2 (by decide)
  · exact (origin_refinement env6 ApiName.provideDefinition "q" ⟨50, 0⟩ link6 mapC6 osrG
      rfl rfl).2.1 (by decide)
  · exact ((origin_refinement env6 ApiName.provideDefinition "q" qPos
      { link6 with originSelectionRange := some rTgt } mapC6 rTgt rfl rfl).2.2 (by decide)).2

/-- C7.  For a link whose target addresses a generated document but whose
target selection range has no source mapping, under plain
`provideDefinition`: when the owning source document differs from the
queried uri, the projector emits the zero-width stub at the owning source
document's start; when it is the same document, the link is dropped (and
the origin step is the identity on links without an origin range, so this
is the whole projector's behaviour for them). -/
theorem definition_stub (env : ProjectorEnv) (uri : String) (position : Pos)
    (link : LocationLink) (info : TargetInfo)
    (hinfo : env.targetInfo link.targetUri = some info)
    (hmap : info.getSourceRange link.targetSelectionRange = none) :
    (info.sourceUri ≠ uri →
      targetStep env ApiName.provideDefinition uri link =
        some { link with
          targetUri := info.sourceUri
          targetRange := zeroRange
          targetSelectionRange := zeroRange })
    ∧ (info.sourceUri = uri → targetStep env ApiName.provideDefinition uri link = none)
    ∧ (link.originSelectionRange = none →
      projectLink env ApiName.provideDefinition uri position link =
        targetStep env ApiName.provideDefinition uri link) := by
  refine ⟨?_, ?_, ?_⟩
  · intro hne
    simp only [targetStep, hinfo, hmap]
    rw [if_true, if_pos hne]
  · intro heq
    simp only [targetStep, hinfo, hmap]
    rw [if_true, if_neg (by simpa using heq)]
  · intro ho
    have hor : originStep env position link = some link := by
      simp only [originStep, ho]
    simp [projectLink, hor]

/-- C7, witness: the unmapped embedded target of `link8` becomes a
zero-width stub at `src` when queried from `q`, is dropped when queried
from `src` itself, and the whole projector agrees with the target step on
this origin-free link. -/
theorem definition_stub_witness :
    targetStep env8 ApiName.provideDefinition "q" link8 =
      some { link8 with
        targetUri := "src"
        targetRange := zeroRange
        targetSelectionRange := zeroRange }
    ∧ targetStep env8 ApiName.provideDefinition "src" link8 = none
    ∧ projectLink env8 ApiName.provideDefinition "q" qPos link8 =
      targetStep env8 ApiName.provideDefinition "q" link8 := by
  refine ⟨?_, ?_, ?_⟩
  · exact (definition_stub env8 "q" qPos link8 info8 rfl rfl).1 (by decide)
  · exact (definition_stub env8 "src" qPos link8 info8 rfl rfl).2.1 rfl
  · exact (definition_stub env8 "q" qPos link8 info8 rfl rfl).2.2 rfl

/-- C8, counterexample to the claim as stated: under
`provideTypeDefinition` a link whose target decodes to a generated
document but has no source mapping survives into the output unchanged —
still addressing the embedded document, not dropped and not a stub. -/
theorem unmapped_passthrough_counterexample :
    (env8.targetInfo link8.targetUri).isSome = true
    ∧ info8.getSourceRange link8.targetSelectionRange = none
    ∧ projectLinks env8 ApiName.provideTypeDefinition "q" qPos [link8] = [link8]
    ∧ link8.targetUri = "emb"
    ∧ link8.targetRange ≠ zeroRange :=
  ⟨by decide, rfl, by decide, rfl, by decide⟩

/-- C8 (amended).  Per-link failure isolation: dropping one link never
affects the others (the projector is an element-wise `filterMap`); a link
whose origin range cannot be mapped is dropped alone; a target that does
not address a generated document passes through; an unmapped generated
target is stubbed or dropped only for plain `provideDefinition`, while
under the other two kinds it passes through unchanged (still addressing
the embedded document). -/
theorem unmapped_link_handling (env : ProjectorEnv) (aN : ApiName) (uri : String)
    (position : Pos) :
    (∀ (l₁ l₂ : List LocationLink) (x : LocationLink),
      projectLinks env aN uri position (l₁ ++ x :: l₂) =
        projectLinks env aN uri position l₁ ++
          (projectLink env aN uri position x).toList ++
          projectLinks env aN uri position l₂)
    ∧ (∀ link, originStep env position link = none →
      projectLink env aN uri position link = none)
    ∧ (∀ link, env.targetInfo link.targetUri = none →
      targetStep env aN uri link = some link)
    ∧ (∀ link info, env.targetInfo link.targetUri = some info →
      info.getSourceRange link.targetSelectionRange = none →
      aN ≠ ApiName.provideDefinition → targetStep env aN uri link = some link)
    ∧ (∀ link info, env.targetInfo link.targetUri = some info →
      info.getSourceRange link.targetSelectionRange = none →
      targetStep env ApiName.provideDefinition uri link =
        (if info.sourceUri ≠ uri then
          some { link with
            targetUri := info.sourceUri
            targetRange := zeroRange
            targetSelectionRange := zeroRange }
        else none)) := by
  refine ⟨?_, ?_, ?_, ?_, ?_⟩
  · intro l₁ l₂ x
    simp only [projectLinks, List.filterMap_append, List.filterMap_cons]
    cases projectLink env aN uri position x <;> simp
  · intro link h
    simp [projectLink, h]
  · intro link h
    simp only [targetStep, h]
  · intro link info hinfo hmap haN
    simp only [targetStep, hinfo, hmap]
    rw [if_neg haN]
  · intro link info hinfo hmap
    simp only [targetStep, hinfo, hmap]
    rw [if_true]

/-- C8 (amended), witness: concrete isolation of one dropped/stubbed link,
the pass-through of the unmapped embedded target under
`provideTypeDefinition`, and the stub/drop dichotomy under
`provideDefinition`. -/
theorem unmapped_link_handling_witness :
    projectLinks env8 ApiName.provideDefinition "q" qPos [link8, link8] =
      projectLinks env8 ApiName.provideDefinition "q" qPos [] ++
        (projectLink env8 ApiName.provideDefinition "q" qPos link8).toList ++
        projectLinks env8 ApiName.provideDefinition "q" qPos [link8]
    ∧ targetStep env8 ApiName.provideTypeDefinition "q" link8 = some link8
    ∧ targetStep env8 ApiName.provideDefinition "q" link8 =
      (if info8.sourceUri ≠ "q" then
        some { link8 with
          targetUri := info8.sourceUri
          targetRange := zeroRange
          targetSelectionRange := zeroRange }
      else none) := by
  refine ⟨?_, ?_, ?_⟩
  · exact (unmapped_link_handling env8 ApiName.provideDefinition "q" qPos).1 [] [link8] link8
  · exact (unmapped_link_handling env8 ApiName.provideTypeDefinition "q" qPos).2.2.2.1
      link8 info8 rfl rfl (by decide)
  · exact (unmapped_link_handling env8 ApiName.provideDefinition "q" qPos).2.2.2.2
      link8 info8 rfl rfl

end Volar


